import Mathlib

/-!
Verification of the elk dynamic loader core (src/process.rs, src/name.rs)
against its natural-language specification.

The Rust code is shallowly embedded: machine words are `Nat` with explicit
`% 2 ^ 64` where truncation matters, process memory is a byte-addressed total
map `Nat → Nat`, fallible operations return `Except`/`Option`, and the few
spots where the Rust code can panic are modelled with a dedicated `fatal`
result constructor.  OS services (`mmap` placement, ifunc selectors, the
filesystem) are parameters of the model.
-/

namespace Elk

/-- Byte-addressed memory: a total map from 64-bit addresses to byte values. -/
def Mem : Type := Nat → Nat

/-- Write the byte list `bs` at address `a` (models a raw `write`/`set`). -/
def writeBytes (m : Mem) (a : Nat) (bs : List Nat) : Mem :=
  fun x => if a ≤ x ∧ x < a + bs.length then bs.getD (x - a) 0 else m x

/-- The eight little-endian bytes of the 64-bit value `v` (models `set::<u64>`). -/
def le64 (v : Nat) : List Nat :=
  [v % 256, v / 256 % 256, v / 256 ^ 2 % 256, v / 256 ^ 3 % 256,
   v / 256 ^ 4 % 256, v / 256 ^ 5 % 256, v / 256 ^ 6 % 256, v / 256 ^ 7 % 256]

/-- Read the 64-bit little-endian word stored at address `a`. -/
def read64 (m : Mem) (a : Nat) : Nat :=
  m a + 256 * (m (a + 1) + 256 * (m (a + 2) + 256 * (m (a + 3) +
    256 * (m (a + 4) + 256 * (m (a + 5) + 256 * (m (a + 6) + 256 * m (a + 7)))))))

theorem writeBytes_notin (m : Mem) (a : Nat) (bs : List Nat) (x : Nat)
    (h : x < a ∨ a + bs.length ≤ x) : writeBytes m a bs x = m x := by
  unfold writeBytes
  rcases h with h | h
  · rw [if_neg]; omega
  · rw [if_neg]; omega

theorem writeBytes_getD (m : Mem) (a : Nat) (bs : List Nat) (k : Nat)
    (h : k < bs.length) : writeBytes m a bs (a + k) = bs.getD k 0 := by
  unfold writeBytes
  rw [if_pos (by omega)]
  congr 1
  omega

theorem read64_writeBytes_le64 (m : Mem) (a v : Nat) :
    read64 (writeBytes m a (le64 v)) a = v % 2 ^ 64 := by
  have hlen : (le64 v).length = 8 := by simp [le64]
  have hb : ∀ k, k < 8 → writeBytes m a (le64 v) (a + k) = (le64 v).getD k 0 := by
    intro k hk
    exact writeBytes_getD m a (le64 v) k (by omega)
  unfold read64
  have h0 := hb 0 (by omega)
  have h1 := hb 1 (by omega)
  have h2 := hb 2 (by omega)
  have h3 := hb 3 (by omega)
  have h4 := hb 4 (by omega)
  have h5 := hb 5 (by omega)
  have h6 := hb 6 (by omega)
  have h7 := hb 7 (by omega)
  simp only [Nat.add_zero] at h0
  rw [h0, h1, h2, h3, h4, h5, h6, h7]
  simp only [le64, List.getD, List.get?]
  show v % 256 + 256 * (v / 256 % 256 + 256 * (v / 256 ^ 2 % 256 + 256 * (v / 256 ^ 3 % 256 +
    256 * (v / 256 ^ 4 % 256 + 256 * (v / 256 ^ 5 % 256 + 256 * (v / 256 ^ 6 % 256 +
    256 * (v / 256 ^ 7 % 256))))))) = v % 2 ^ 64
  omega

theorem read64_congr (m m2 : Mem) (a : Nat)
    (h : ∀ x, a ≤ x → x < a + 8 → m2 x = m x) : read64 m2 a = read64 m a := by
  unfold read64
  rw [h a (by omega) (by omega), h (a+1) (by omega) (by omega), h (a+2) (by omega) (by omega),
      h (a+3) (by omega) (by omega), h (a+4) (by omega) (by omega),
      h (a+5) (by omega) (by omega), h (a+6) (by omega) (by omega),
      h (a+7) (by omega) (by omega)]

/-! ## ELF data model (mirrors `delf`'s types as used by `src/process.rs`) -/

/-- `delf::SymBind` (symbol binding). -/
inductive SymBind
  | Local
  | Global
  | Weak
  | Other
deriving DecidableEq, Repr

/-- `delf::SegmentType` (only the program-header types the loader inspects). -/
inductive SegmentType
  | Load
  | TLS
  | OtherSeg
deriving DecidableEq, Repr

/-- `delf::RelType`: the x86-64 relocation types `apply_relocation` dispatches
on; every type outside the handled set is `Other n`. -/
inductive RelType
  | R64
  | Copy
  | Relative
  | IRelative
  | GlobDat
  | JumpSlot
  | TPOff64
  | DTPMod64
  | Other (n : Nat)
deriving DecidableEq, Repr

/-- `NamedSym` (src/process.rs:806): a `delf::Sym` paired with its resolved
name; the name is modelled by its byte content (`Name` equality is by bytes). -/
structure NamedSym where
  name : String
  shndx : Nat
  bind : SymBind
  value : Nat
  size : Nat
deriving DecidableEq, Repr

/-- `delf::Rela`: one relocation record. -/
structure Rela where
  offset : Nat
  type : RelType
  sym : Nat
  addend : Nat
deriving DecidableEq, Repr

/-- `delf::ProgramHeader` (the fields the loader reads). -/
structure PH where
  type : SegmentType
  vaddr : Nat
  filesz : Nat
  memsz : Nat
  offset : Nat
deriving DecidableEq, Repr

/-- `Segment` (src/process.rs:798): one mapped load segment (the `MemoryMap`
handle itself is not part of the model; its placement is `vaddrStart`). -/
structure Segment where
  vaddrStart : Nat
  vaddrEnd : Nat
  padding : Nat
deriving DecidableEq, Repr

/-- The parsed `delf::File` view of one object, together with the outcomes of
the environment-dependent steps taken while loading it (mmap placement,
symbol/relocation table reads): `none` in an `Option` field means the
corresponding fallible step fails for this file.  `segMapOk` covers the
per-segment mapping failures other than the deterministic `EINVAL` a
`MAP_FIXED` mapping raises at a non-page-aligned address — that one is
checked explicitly by `load_object`, because it depends on the reservation
base; `segMapOk` carries the environment-dependent failures (resource
exhaustion) and the file-determined `EINVAL` cases (e.g. an unaligned file
offset). -/
structure FileModel where
  phs : List PH
  neededs : List String
  rpaths : List String
  symsRes : Option (List NamedSym)
  relsRes : Option (List Rela)
  reserveBase : Option Nat
  segMapOk : Bool
deriving DecidableEq, Repr

/-- `Object` (src/process.rs:858). -/
structure Object where
  path : String
  base : Nat
  file : FileModel
  memRangeStart : Nat
  memRangeEnd : Nat
  segments : List Segment
  syms : List NamedSym
  rels : List Rela
deriving DecidableEq, Repr

def defaultFileModel : FileModel :=
  { phs := [], neededs := [], rpaths := [], symsRes := some [], relsRes := some [],
    reserveBase := none, segMapOk := true }

def defaultObject : Object :=
  { path := "", base := 0, file := defaultFileModel, memRangeStart := 0, memRangeEnd := 0,
    segments := [], syms := [], rels := [] }

def defaultSym : NamedSym :=
  { name := "", shndx := 0, bind := .Local, value := 0, size := 0 }

/-- `obj.sym_map.get_vec(name)`: the multimap bucket for `name`, i.e. the
object's dynamic symbols carrying that name, in insertion (= table) order. -/
def symMap (o : Object) (name : String) : List NamedSym :=
  o.syms.filter (fun s => s.name == name)

/-- `ResolvedSym` (src/process.rs:825).  `Defined` keeps the defining object's
base (all later uses of the resolved object are through its base). -/
inductive ResolvedSym
  | Defined (objBase : Nat) (sym : NamedSym)
  | Undefined
deriving DecidableEq, Repr

/-- `ResolvedSym::value` (src/process.rs:831): loaded virtual address, 0 if undefined. -/
def ResolvedSym.value : ResolvedSym → Nat
  | .Defined b s => b + s.value
  | .Undefined => 0

/-- `ResolvedSym::size` (src/process.rs:838). -/
def ResolvedSym.size : ResolvedSym → Nat
  | .Defined _ s => s.size
  | .Undefined => 0

/-- `lookup_symbol` (src/process.rs:209), recursion over the object list with
the running index `j`; `std::ptr::eq(wanted.obj, obj)` holds exactly when `j`
is the index of the relocation's own object. -/
def lookup_symbol_from (name : String) (selfIdx : Nat) (ignoreSelf : Bool) :
    Nat → List Object → ResolvedSym
  | _, [] => .Undefined
  | j, o :: rest =>
    if ignoreSelf = true ∧ j = selfIdx then
      lookup_symbol_from name selfIdx ignoreSelf (j + 1) rest
    else
      match (symMap o name).find? (fun s => !(s.shndx == 0)) with
      | some s => .Defined o.base s
      | none => lookup_symbol_from name selfIdx ignoreSelf (j + 1) rest

/-- `Process::lookup_symbol(wanted, ignore_self)` over the loader's object list. -/
def lookup_symbol (objs : List Object) (selfIdx : Nat) (name : String)
    (ignoreSelf : Bool) : ResolvedSym :=
  lookup_symbol_from name selfIdx ignoreSelf 0 objs

/-- Symbol lookup as the spec words it: among the objects in load order that
are not skipped, flatten each object's bucket for the wanted name and take the
first symbol whose section index is not `SHN_UNDEF`. -/
def lookupSpec (objs : List Object) (selfIdx : Nat) (name : String)
    (ignoreSelf : Bool) : ResolvedSym :=
  match ((objs.enum.filter (fun p => !(ignoreSelf && p.1 == selfIdx))).flatMap
      (fun p => (symMap p.2 name).map (fun s => (p.2.base, s)))).find?
      (fun q => !(q.2.shndx == 0)) with
  | some q => .Defined q.1 q.2
  | none => .Undefined

/-- `lookupSpec` generalized to an explicitly indexed object list. -/
def lookupSpecFrom (name : String) (selfIdx : Nat) (ignoreSelf : Bool)
    (l : List (Nat × Object)) : ResolvedSym :=
  match ((l.filter (fun p => !(ignoreSelf && p.1 == selfIdx))).flatMap
      (fun p => (symMap p.2 name).map (fun s => (p.2.base, s)))).find?
      (fun q => !(q.2.shndx == 0)) with
  | some q => .Defined q.1 q.2
  | none => .Undefined

theorem lookup_symbol_from_spec (name : String) (selfIdx : Nat) (ignoreSelf : Bool)
    (objs : List Object) : ∀ j : Nat,
    lookup_symbol_from name selfIdx ignoreSelf j objs =
      lookupSpecFrom name selfIdx ignoreSelf (List.enumFrom j objs) := by
  induction objs with
  | nil => intro j; rfl
  | cons o rest ih =>
    intro j
    by_cases h : ignoreSelf = true ∧ j = selfIdx
    · have hskip : (!(ignoreSelf && j == selfIdx)) = false := by
        simp [h.1, h.2]
      rw [lookup_symbol_from, if_pos h, ih (j + 1)]
      unfold lookupSpecFrom
      rw [List.enumFrom, List.filter_cons]
      simp only [hskip]
      simp
    · have hkeep : (!(ignoreSelf && j == selfIdx)) = true := by
        rcases Decidable.not_and_iff_or_not.mp h with h1 | h1 <;> simp [h1]
      rw [lookup_symbol_from, if_neg h]
      unfold lookupSpecFrom
      rw [List.enumFrom, List.filter_cons]
      simp only [hkeep, if_true]
      rw [List.flatMap_cons, List.find?_append, List.find?_map]
      have hcomp : ((fun q : Nat × NamedSym => !(q.2.shndx == 0)) ∘
          (fun s : NamedSym => (o.base, s))) = fun s : NamedSym => !(s.shndx == 0) := rfl
      rw [hcomp]
      cases hfind : (symMap o name).find? (fun s => !(s.shndx == 0)) with
      | some s =>
        simp only [hfind, Option.map_some]
        rfl
      | none =>
        simp only [hfind, Option.map_none, Option.or]
        rw [ih (j + 1)]
        rfl

theorem lookup_symbol_eq_lookupSpec (objs : List Object) (selfIdx : Nat)
    (name : String) (ignoreSelf : Bool) :
    lookup_symbol objs selfIdx name ignoreSelf = lookupSpec objs selfIdx name ignoreSelf := by
  rw [lookup_symbol, lookup_symbol_from_spec]
  rfl

/-! ## Relocation engine (src/process.rs:523-643) -/

/-- `RelocationError` (src/process.rs:165). -/
inductive RelocationError
  | UnimplementedRelocation (path : String) (type : RelType)
  | UnknownSymbolNumber (n : Nat)
  | UndefinedSymbol (sym : NamedSym)
deriving DecidableEq, Repr

/-- A single memory effect performed by one relocation. -/
inductive Effect
  | set64 (addr val : Nat)
  | copyBytes (dst src len : Nat)
  | callIndirect (addr sel : Nat)
  | noop
deriving DecidableEq, Repr

/-- Outcome of `apply_relocation`: Rust `Err` / `Ok`, plus `fatal` for the
executions in which the Rust code panics (out-of-bounds `obj.syms[rel.sym]`
indexing, or the missing-TLS-offset `unwrap_or_else(panic)`). -/
inductive RelResult
  | fatal
  | err (e : RelocationError)
  | ok (eff : Effect)
deriving DecidableEq, Repr

/-- `let ignore_self = matches!(reltype, RT::Copy)` (src/process.rs:562). -/
def ignoreSelfFor (t : RelType) : Bool := t == .Copy

/-- The eight bytes stored for a signed 64-bit value (two's complement). -/
def i64bytes (x : Int) : Nat := (x % (2 ^ 64 : Int)).toNat

/-- Symbol-resolution phase of `apply_relocation` (src/process.rs:565-578). -/
def resolveRelSym (objs : List Object) (selfIdx : Nat) (rel : Rela)
    (wanted : NamedSym) : Except RelocationError ResolvedSym :=
  if rel.sym = 0 then .ok .Undefined
  else
    match lookup_symbol objs selfIdx wanted.name (ignoreSelfFor rel.type) with
    | .Undefined =>
      match wanted.bind with
      | .Weak => .ok .Undefined
      | _ => .error (.UndefinedSymbol wanted)
    | x => .ok x

/-- `ObjectRel::addr` (src/process.rs:853): the relocation's target address. -/
def relAddr (obj : Object) (rel : Rela) : Nat := obj.base + rel.offset

/-- Type-dispatch phase of `apply_relocation` (src/process.rs:580-641); the
target address is `objrel.addr() = obj.base + rel.offset`. -/
def relDispatch (tlsOffsets : Nat → Option Nat) (obj : Object) (rel : Rela)
    (found : ResolvedSym) : RelResult :=
  let target := relAddr obj rel
  match rel.type with
  | .R64 => .ok (.set64 target (found.value + rel.addend))
  | .Relative => .ok (.set64 target (obj.base + rel.addend))
  | .IRelative => .ok (.callIndirect target (obj.base + rel.addend))
  | .Copy => .ok (.copyBytes target found.value found.size)
  | .GlobDat => .ok (.set64 target found.value)
  | .JumpSlot => .ok (.set64 target found.value)
  | .TPOff64 =>
    match found with
    | .Defined b s =>
      match tlsOffsets b with
      | none => .fatal
      | some off =>
        .ok (.set64 target (i64bytes (-(off : Int) + (s.value : Int) + (rel.addend : Int))))
    | .Undefined => .ok .noop
  | .DTPMod64 => .ok .noop
  | .Other _ => .err (.UnimplementedRelocation obj.path rel.type)

/-- `Process::<TLSAllocated>::apply_relocation` (src/process.rs:545).
`obj.syms[rel.sym as usize]` is evaluated before anything else, so an
out-of-bounds symbol index is `fatal` on every path. -/
def apply_relocation (tlsOffsets : Nat → Option Nat) (objs : List Object)
    (objIdx : Nat) (rel : Rela) : RelResult :=
  if rel.sym < (objs.getD objIdx defaultObject).syms.length then
    match resolveRelSym objs objIdx rel
        ((objs.getD objIdx defaultObject).syms.getD rel.sym defaultSym) with
    | .error e => .err e
    | .ok found => relDispatch tlsOffsets (objs.getD objIdx defaultObject) rel found
  else .fatal

/-- Apply one effect to memory.  `ifunc` is the oracle giving the return value
of an `IRelative` selector function. -/
def runEffect (ifunc : Nat → Nat) (m : Mem) : Effect → Mem
  | .set64 a v => writeBytes m a (le64 v)
  | .copyBytes d s n => writeBytes m d ((List.range n).map (fun k => m (s + k)))
  | .callIndirect a sel => writeBytes m a (le64 (ifunc sel))
  | .noop => m

/-- Outcome of the whole relocation pass over memory. -/
inductive RelRun
  | fatal
  | err (e : RelocationError)
  | ok (m : Mem)

/-- Sequentially apply `(object index, relocation)` pairs, stopping at the
first error or panic (the `?` in the `for rel in rels` loop). -/
def runRels (ifunc : Nat → Nat) (tlsOffsets : Nat → Option Nat)
    (objs : List Object) : Mem → List (Nat × Rela) → RelRun
  | m, [] => .ok m
  | m, (i, rel) :: rest =>
    match apply_relocation tlsOffsets objs i rel with
    | .fatal => .fatal
    | .err e => .err e
    | .ok eff => runRels ifunc tlsOffsets objs (runEffect ifunc m eff) rest

/-- The relocation worklist of `apply_relocations` (src/process.rs:524-531):
objects in reverse load order, each object's records in table order. -/
def relPass (objs : List Object) : List (Nat × Rela) :=
  objs.enum.reverse.flatMap (fun p => p.2.rels.map (fun r => (p.1, r)))

/-- `Process::<TLSAllocated>::apply_relocations` (src/process.rs:523). -/
def apply_relocations (ifunc : Nat → Nat) (tlsOffsets : Nat → Option Nat)
    (objs : List Object) (m0 : Mem) : RelRun :=
  runRels ifunc tlsOffsets objs m0 (relPass objs)

/-- The byte range (start, length) written by an effect. -/
def effRange : Effect → Nat × Nat
  | .set64 a _ => (a, 8)
  | .copyBytes d _ n => (d, n)
  | .callIndirect a _ => (a, 8)
  | .noop => (0, 0)

/-- Two (start, length) byte ranges do not intersect. -/
def rangesDisjoint (r1 r2 : Nat × Nat) : Prop :=
  r1.1 + r1.2 ≤ r2.1 ∨ r2.1 + r2.2 ≤ r1.1

instance (r1 r2 : Nat × Nat) : Decidable (rangesDisjoint r1 r2) := by
  unfold rangesDisjoint
  infer_instance

theorem getD_of_getElem? {α : Type} {l : List α} {n : Nat} {a d : α}
    (h : l[n]? = some a) : l.getD n d = a := by
  simp [List.getD, h]

theorem runEffect_frame (ifunc : Nat → Nat) (m : Mem) (eff : Effect) (a n : Nat)
    (h : rangesDisjoint (effRange eff) (a, n)) :
    ∀ x, a ≤ x → x < a + n → runEffect ifunc m eff x = m x := by
  intro x hx1 hx2
  cases eff with
  | set64 b v =>
    simp only [rangesDisjoint, effRange] at h
    apply writeBytes_notin
    simp only [le64, List.length]
    omega
  | copyBytes d s len =>
    simp only [rangesDisjoint, effRange] at h
    apply writeBytes_notin
    simp only [List.length_map, List.length_range]
    omega
  | callIndirect b sel =>
    simp only [rangesDisjoint, effRange] at h
    apply writeBytes_notin
    simp only [le64, List.length]
    omega
  | noop => rfl

theorem runRels_append (ifunc : Nat → Nat) (tlsOffsets : Nat → Option Nat)
    (objs : List Object) (l1 l2 : List (Nat × Rela)) : ∀ m : Mem,
    runRels ifunc tlsOffsets objs m (l1 ++ l2) =
      match runRels ifunc tlsOffsets objs m l1 with
      | .ok m1 => runRels ifunc tlsOffsets objs m1 l2
      | .fatal => .fatal
      | .err e => .err e := by
  induction l1 with
  | nil => intro m; rfl
  | cons p rest ih =>
    intro m
    obtain ⟨i, rel⟩ := p
    rw [List.cons_append, runRels, runRels]
    cases apply_relocation tlsOffsets objs i rel with
    | fatal => rfl
    | err e => rfl
    | ok eff => exact ih (runEffect ifunc m eff)

theorem runRels_ok_frame (ifunc : Nat → Nat) (tlsOffsets : Nat → Option Nat)
    (objs : List Object) (a n : Nat) : ∀ (l : List (Nat × Rela)) (m m2 : Mem),
    runRels ifunc tlsOffsets objs m l = .ok m2 →
    (∀ p ∈ l, ∀ eff, apply_relocation tlsOffsets objs p.1 p.2 = .ok eff →
      rangesDisjoint (effRange eff) (a, n)) →
    ∀ x, a ≤ x → x < a + n → m2 x = m x := by
  intro l
  induction l with
  | nil =>
    intro m m2 hrun _ x _ _
    cases hrun
    rfl
  | cons p rest ih =>
    intro m m2 hrun hdisj x hx1 hx2
    obtain ⟨i, rel⟩ := p
    rw [runRels] at hrun
    cases happ : apply_relocation tlsOffsets objs i rel with
    | fatal => rw [happ] at hrun; cases hrun
    | err e => rw [happ] at hrun; cases hrun
    | ok eff =>
      rw [happ] at hrun
      have hstep := runEffect_frame ifunc m eff a n
        (hdisj (i, rel) (List.mem_cons_self _ _) eff happ) x hx1 hx2
      have htail := ih (runEffect ifunc m eff) m2 hrun
        (fun q hq => hdisj q (List.mem_cons_of_mem _ hq)) x hx1 hx2
      rw [htail, hstep]

/-- The relocation types `apply_relocation` has a dispatch arm for. -/
def RelType.implemented : RelType → Bool
  | .Other _ => false
  | _ => true

theorem resolveRelSym_error (objs : List Object) (selfIdx : Nat) (rel : Rela)
    (wanted : NamedSym) (e : RelocationError)
    (h : resolveRelSym objs selfIdx rel wanted = .error e) :
    e = .UndefinedSymbol wanted := by
  by_cases h0 : rel.sym = 0
  · simp [resolveRelSym, h0] at h
  · cases hls : lookup_symbol objs selfIdx wanted.name (ignoreSelfFor rel.type) with
    | Defined b s => simp [resolveRelSym, h0, hls] at h
    | Undefined =>
      cases hb : wanted.bind with
      | Weak => simp [resolveRelSym, h0, hls, hb] at h
      | Local =>
        simp [resolveRelSym, h0, hls, hb] at h
        exact h.symm
      | Global =>
        simp [resolveRelSym, h0, hls, hb] at h
        exact h.symm
      | Other =>
        simp [resolveRelSym, h0, hls, hb] at h
        exact h.symm

theorem relDispatch_error (tlsOffsets : Nat → Option Nat) (obj : Object) (rel : Rela)
    (found : ResolvedSym) (e : RelocationError)
    (h : relDispatch tlsOffsets obj rel found = .err e) :
    e = .UnimplementedRelocation obj.path rel.type := by
  cases ht : rel.type with
  | R64 => simp [relDispatch, ht] at h
  | Relative => simp [relDispatch, ht] at h
  | IRelative => simp [relDispatch, ht] at h
  | Copy => simp [relDispatch, ht] at h
  | GlobDat => simp [relDispatch, ht] at h
  | JumpSlot => simp [relDispatch, ht] at h
  | DTPMod64 => simp [relDispatch, ht] at h
  | TPOff64 =>
    cases found with
    | Defined b s =>
      cases hoff : tlsOffsets b with
      | none => simp [relDispatch, ht, hoff] at h
      | some off => simp [relDispatch, ht, hoff] at h
    | Undefined => simp [relDispatch, ht] at h
  | Other n =>
    simp [relDispatch, ht] at h
    exact h.symm

/-- C2: `lookup_symbol` is first-defined-wins in load order — it agrees with
the spec-side description (first symbol with a defined section index among the
buckets of non-skipped objects, in load order), the own object is skipped
exactly when `ignore_self` holds, `apply_relocation` requests `ignore_self`
exactly for `R_X86_64_COPY`, and when no searched object holds a defined
symbol of the wanted name the result is `Undefined`. -/
theorem c2_lookup_policy :
    (∀ (objs : List Object) (selfIdx : Nat) (name : String) (ignoreSelf : Bool),
      lookup_symbol objs selfIdx name ignoreSelf = lookupSpec objs selfIdx name ignoreSelf)
    ∧ (∀ t : RelType, ignoreSelfFor t = true ↔ t = .Copy)
    ∧ (∀ (objs : List Object) (selfIdx : Nat) (name : String) (ignoreSelf : Bool),
        (∀ j o, objs[j]? = some o → ¬(ignoreSelf = true ∧ j = selfIdx) →
          ∀ s ∈ symMap o name, s.shndx = 0) →
        lookup_symbol objs selfIdx name ignoreSelf = .Undefined) := by
  refine ⟨lookup_symbol_eq_lookupSpec, ?_, ?_⟩
  · intro t
    unfold ignoreSelfFor
    simp [beq_iff_eq]
  · intro objs selfIdx name ignoreSelf h
    rw [lookup_symbol_eq_lookupSpec]
    unfold lookupSpec
    cases hf : ((objs.enum.filter (fun p => !(ignoreSelf && p.1 == selfIdx))).flatMap
        (fun p => (symMap p.2 name).map (fun s => (p.2.base, s)))).find?
        (fun q => !(q.2.shndx == 0)) with
    | none => rfl
    | some q =>
      exfalso
      have hpred := List.find?_some hf
      have hmem := List.mem_of_find?_eq_some hf
      obtain ⟨p, hpf, hq⟩ := List.mem_flatMap.mp hmem
      obtain ⟨hpe, hpk⟩ := List.mem_filter.mp hpf
      obtain ⟨j, o⟩ := p
      have hget : objs[j]? = some o := List.mk_mem_enum_iff_getElem?.mp hpe
      have hnskip : ¬(ignoreSelf = true ∧ j = selfIdx) := by
        intro ⟨hi, hj⟩
        rw [hi, hj] at hpk
        simp at hpk
      obtain ⟨s, hs, hqe⟩ := List.mem_map.mp hq
      have hzero : s.shndx = 0 := h j o hget hnskip s hs
      rw [← hqe] at hpred
      simp [hzero] at hpred

/-- Fixture for the C2 witness: one object defining symbol `m`. -/
def c2Obj : Object :=
  { defaultObject with
    base := 100
    syms := [{ name := "m", shndx := 1, bind := .Global, value := 8, size := 4 }] }

theorem c2_lookup_policy_witness :
    (lookup_symbol [c2Obj] 0 "m" false = lookupSpec [c2Obj] 0 "m" false)
    ∧ (ignoreSelfFor .Copy = true)
    ∧ (lookup_symbol [c2Obj] 0 "zz" false = .Undefined) :=
  ⟨c2_lookup_policy.1 [c2Obj] 0 "m" false,
   (c2_lookup_policy.2.1 .Copy).mpr rfl,
   c2_lookup_policy.2.2 [c2Obj] 0 "zz" false (by
    intro j o hj hns s hs
    cases j with
    | zero =>
      simp only [List.getElem?_cons_zero, Option.some.injEq] at hj
      rw [← hj] at hs
      simp [symMap, c2Obj, defaultObject] at hs
    | succ k => simp at hj)⟩

/-- C3 (amended): with a nonzero in-bounds symbol index whose lookup comes
back `Undefined`, a `Weak` local binding proceeds with the undefined
resolution (value zero) — the call returning `Ok` whenever the relocation
type has a dispatch arm — and any other binding fails with
`UndefinedSymbol`. -/
theorem c3_weak_undefined_policy (tlsOffsets : Nat → Option Nat)
    (objs : List Object) (i : Nat) (rel : Rela) (obj : Object)
    (hobj : objs[i]? = some obj) (hsym0 : rel.sym ≠ 0)
    (hbound : rel.sym < obj.syms.length)
    (hlook : lookup_symbol objs i (obj.syms.getD rel.sym defaultSym).name
        (ignoreSelfFor rel.type) = .Undefined) :
    ((obj.syms.getD rel.sym defaultSym).bind = .Weak →
      apply_relocation tlsOffsets objs i rel = relDispatch tlsOffsets obj rel .Undefined
      ∧ ResolvedSym.value .Undefined = 0
      ∧ (rel.type.implemented = true → ∃ eff, apply_relocation tlsOffsets objs i rel = .ok eff))
    ∧ ((obj.syms.getD rel.sym defaultSym).bind ≠ .Weak →
      apply_relocation tlsOffsets objs i rel
        = .err (.UndefinedSymbol (obj.syms.getD rel.sym defaultSym))) := by
  have hgetD : objs.getD i defaultObject = obj := getD_of_getElem? hobj
  have happ : apply_relocation tlsOffsets objs i rel
      = match resolveRelSym objs i rel (obj.syms.getD rel.sym defaultSym) with
        | .error e => .err e
        | .ok found => relDispatch tlsOffsets obj rel found := by
    unfold apply_relocation
    rw [hgetD, if_pos hbound]
  constructor
  · intro hweak
    have hres : resolveRelSym objs i rel (obj.syms.getD rel.sym defaultSym)
        = .ok .Undefined := by
      unfold resolveRelSym
      rw [if_neg hsym0, hlook, hweak]
    rw [happ, hres]
    refine ⟨rfl, rfl, ?_⟩
    intro himpl
    cases ht : rel.type with
    | Other n => rw [ht] at himpl; cases himpl
    | TPOff64 => exact ⟨.noop, by unfold relDispatch; rw [ht]⟩
    | R64 => exact ⟨_, by unfold relDispatch; rw [ht]⟩
    | Copy => exact ⟨_, by unfold relDispatch; rw [ht]⟩
    | Relative => exact ⟨_, by unfold relDispatch; rw [ht]⟩
    | IRelative => exact ⟨_, by unfold relDispatch; rw [ht]⟩
    | GlobDat => exact ⟨_, by unfold relDispatch; rw [ht]⟩
    | JumpSlot => exact ⟨_, by unfold relDispatch; rw [ht]⟩
    | DTPMod64 => exact ⟨.noop, by unfold relDispatch; rw [ht]⟩
  · intro hnweak
    have hres : resolveRelSym objs i rel (obj.syms.getD rel.sym defaultSym)
        = .error (.UndefinedSymbol (obj.syms.getD rel.sym defaultSym)) := by
      unfold resolveRelSym
      rw [if_neg hsym0, hlook]
      cases hb : (obj.syms.getD rel.sym defaultSym).bind with
      | Weak => exact absurd hb hnweak
      | Local => rfl
      | Global => rfl
      | Other => rfl
    rw [happ, hres]

/-- Fixture for C3: an object whose symbol 1 is weak and undefined everywhere. -/
def c3Obj : Object :=
  { defaultObject with
    base := 200
    syms := [defaultSym, { name := "w", shndx := 0, bind := .Weak, value := 0, size := 0 }] }

/-- C3 counterexample to the claim as stated: a weak undefined symbol attached
to a relocation of an unimplemented type makes `apply_relocation` return the
`UnimplementedRelocation` error, not `Ok`. -/
theorem c3_weak_undefined_counterexample :
    ({ offset := 0, type := .Other 16, sym := 1, addend := 0 : Rela }).sym ≠ 0
    ∧ (c3Obj.syms.getD 1 defaultSym).bind = .Weak
    ∧ lookup_symbol [c3Obj] 0 (c3Obj.syms.getD 1 defaultSym).name
        (ignoreSelfFor (.Other 16)) = .Undefined
    ∧ apply_relocation (fun _ => none) [c3Obj] 0
        { offset := 0, type := .Other 16, sym := 1, addend := 0 }
      = .err (.UnimplementedRelocation "" (.Other 16)) := by
  refine ⟨by decide, by decide, by decide, by decide⟩

theorem c3_weak_undefined_policy_witness :
    (apply_relocation (fun _ => none) [c3Obj] 0
        { offset := 0, type := .R64, sym := 1, addend := 7 }
      = relDispatch (fun _ => none) c3Obj
        { offset := 0, type := .R64, sym := 1, addend := 7 } .Undefined)
    ∧ ResolvedSym.value .Undefined = 0 := by
  have h := c3_weak_undefined_policy (fun _ => none) [c3Obj] 0
    { offset := 0, type := .R64, sym := 1, addend := 7 } c3Obj
    (by decide) (by decide) (by decide) (by decide)
  exact ⟨(h.1 (by decide)).1, (h.1 (by decide)).2.1⟩

/-- C10: `obj.syms[rel.sym as usize]` is evaluated with no bounds check, so an
out-of-range symbol index panics instead of producing an error, and the
`UnknownSymbolNumber` error variant is never produced — neither by
`apply_relocation` nor by the relocation pass. -/
theorem c10_unchecked_symbol_index :
    (∀ (tlsOffsets : Nat → Option Nat) (objs : List Object) (i : Nat) (rel : Rela),
      (objs.getD i defaultObject).syms.length ≤ rel.sym →
      apply_relocation tlsOffsets objs i rel = .fatal)
    ∧ (∀ (tlsOffsets : Nat → Option Nat) (objs : List Object) (i : Nat) (rel : Rela) (n : Nat),
      apply_relocation tlsOffsets objs i rel ≠ .err (.UnknownSymbolNumber n))
    ∧ (∀ (ifunc : Nat → Nat) (tlsOffsets : Nat → Option Nat) (objs : List Object)
        (m : Mem) (l : List (Nat × Rela)) (n : Nat),
      runRels ifunc tlsOffsets objs m l ≠ .err (.UnknownSymbolNumber n)) := by
  have hnotun : ∀ (tlsOffsets : Nat → Option Nat) (objs : List Object) (i : Nat)
      (rel : Rela) (n : Nat),
      apply_relocation tlsOffsets objs i rel ≠ .err (.UnknownSymbolNumber n) := by
    intro tlsOffsets objs i rel n h
    unfold apply_relocation at h
    by_cases hlt : rel.sym < (objs.getD i defaultObject).syms.length
    · rw [if_pos hlt] at h
      cases hres : resolveRelSym objs i rel
          ((objs.getD i defaultObject).syms.getD rel.sym defaultSym) with
      | error e =>
        rw [hres] at h
        injection h with h2
        rw [h2] at hres
        have h3 := resolveRelSym_error _ _ _ _ _ hres
        cases h3
      | ok found =>
        rw [hres] at h
        have h3 := relDispatch_error _ _ _ _ _ h
        cases h3
    · rw [if_neg hlt] at h
      cases h
  refine ⟨?_, hnotun, ?_⟩
  · intro tlsOffsets objs i rel hle
    unfold apply_relocation
    rw [if_neg (by omega)]
  · intro ifunc tlsOffsets objs m l n
    induction l generalizing m with
    | nil => intro h; cases h
    | cons p rest ih =>
      intro h
      obtain ⟨i, rel⟩ := p
      rw [runRels] at h
      cases happ : apply_relocation tlsOffsets objs i rel with
      | fatal => rw [happ] at h; cases h
      | err e =>
        rw [happ] at h
        injection h with h2
        rw [h2] at happ
        exact hnotun tlsOffsets objs i rel n happ
      | ok eff =>
        rw [happ] at h
        exact ih (runEffect ifunc m eff) h

theorem c10_unchecked_symbol_index_witness :
    apply_relocation (fun _ => none) [] 0 { offset := 0, type := .R64, sym := 0, addend := 0 }
      = .fatal
    ∧ apply_relocation (fun _ => none) [c3Obj] 0
        { offset := 0, type := .R64, sym := 1, addend := 0 }
      ≠ .err (.UnknownSymbolNumber 1) :=
  ⟨c10_unchecked_symbol_index.1 (fun _ => none) [] 0 _ (by decide),
   c10_unchecked_symbol_index.2.1 (fun _ => none) [c3Obj] 0 _ 1⟩

/-- C1: after a successful relocation pass, an `R_X86_64_RELATIVE` record of
object `obj` has left the 64-bit word `obj.base + addend` at its target
`obj.base + rel.offset`, provided no relocation applied later in the pass
writes over that word. -/
theorem c1_relative_relocation (ifunc : Nat → Nat) (tlsOffsets : Nat → Option Nat)
    (objs : List Object) (m0 mf : Mem) (i : Nat) (obj : Object) (rel : Rela)
    (l1 l2 : List (Nat × Rela))
    (hobj : objs[i]? = some obj)
    (htype : rel.type = .Relative)
    (hsplit : relPass objs = l1 ++ (i, rel) :: l2)
    (hrun : apply_relocations ifunc tlsOffsets objs m0 = .ok mf)
    (hframe : ∀ p ∈ l2, ∀ eff, apply_relocation tlsOffsets objs p.1 p.2 = .ok eff →
      rangesDisjoint (effRange eff) (relAddr obj rel, 8)) :
    read64 mf (relAddr obj rel) = (obj.base + rel.addend) % 2 ^ 64 := by
  unfold apply_relocations at hrun
  rw [hsplit, runRels_append] at hrun
  cases h1 : runRels ifunc tlsOffsets objs m0 l1 with
  | fatal => rw [h1] at hrun; cases hrun
  | err e => rw [h1] at hrun; cases hrun
  | ok m1 =>
    rw [h1] at hrun
    simp only [runRels] at hrun
    cases happ : apply_relocation tlsOffsets objs i rel with
    | fatal => rw [happ] at hrun; cases hrun
    | err e => rw [happ] at hrun; cases hrun
    | ok eff =>
      rw [happ] at hrun
      have heff : eff = .set64 (relAddr obj rel) (obj.base + rel.addend) := by
        have hgetD : objs.getD i defaultObject = obj := getD_of_getElem? hobj
        unfold apply_relocation at happ
        rw [hgetD] at happ
        by_cases hlt : rel.sym < obj.syms.length
        · rw [if_pos hlt] at happ
          cases hres : resolveRelSym objs i rel (obj.syms.getD rel.sym defaultSym) with
          | error e => rw [hres] at happ; cases happ
          | ok found =>
            rw [hres] at happ
            simp [relDispatch, htype] at happ
            exact happ.symm
        · rw [if_neg hlt] at happ; cases happ
      subst heff
      have hfr := runRels_ok_frame ifunc tlsOffsets objs (relAddr obj rel) 8 l2
        (runEffect ifunc m1 (.set64 (relAddr obj rel) (obj.base + rel.addend))) mf hrun hframe
      rw [read64_congr _ mf (relAddr obj rel) hfr]
      exact read64_writeBytes_le64 m1 (relAddr obj rel) (obj.base + rel.addend)

/-- Fixture for the C1 witness: one object with a single `Relative` record. -/
def c1Obj : Object :=
  { defaultObject with
    base := 4096
    syms := [defaultSym]
    rels := [{ offset := 16, type := .Relative, sym := 0, addend := 32 }] }

theorem c1_relative_relocation_witness :
    read64 (writeBytes (fun _ => 0) 4112 (le64 4128)) 4112 = 4128 % 2 ^ 64 :=
  c1_relative_relocation (fun _ => 0) (fun _ => none) [c1Obj] (fun _ => 0)
    (writeBytes (fun _ => 0) 4112 (le64 4128)) 0 c1Obj
    { offset := 16, type := .Relative, sym := 0, addend := 32 } [] []
    rfl rfl rfl rfl (fun p hp => absurd hp (List.not_mem_nil p))

/-! ## Initial stack construction (src/process.rs:743-790) -/

/-- `Process::<Protected>::build_stack(opts)`.  `args` and `env` are the
`CString` pointer values pushed for argv/envp; `auxv` the `(type, value)`
pairs of the known auxiliary vector.  The pushes happen in this order:
argc, argv pointers, a null word, envp pointers, a null word, each auxv
`(typ, value)` pair, `AT_NULL` (= 0) and a null word, then one zero pad word
if the word count is odd. -/
def build_stack (args env : List Nat) (auxv : List (Nat × Nat)) : List Nat :=
  let stack := ((((([args.length] ++ args) ++ [0]) ++ env) ++ [0])
      ++ auxv.flatMap (fun v => [v.1, v.2])) ++ [0, 0]
  if stack.length % 2 == 1 then stack ++ [0] else stack

/-- The stack layout as the spec words it: argc first, then argv pointers, a
zero word, envp pointers, a zero word, the `(type, value)` pairs, and the
terminating `(AT_NULL, 0)` pair. -/
def stackCore (args env : List Nat) (auxv : List (Nat × Nat)) : List Nat :=
  args.length :: (args ++ [0] ++ env ++ [0] ++ auxv.flatMap (fun v => [v.1, v.2]) ++ [0, 0])

/-- C5: `build_stack` produces exactly the spec layout — argc, argv pointers,
zero, envp pointers, zero, auxv pairs ending with `(AT_NULL, 0)` — plus one
zero pad word exactly when the layout's word count is odd, so the total word
count is always even. -/
theorem c5_build_stack (args env : List Nat) (auxv : List (Nat × Nat)) :
    build_stack args env auxv
      = stackCore args env auxv
        ++ (if (stackCore args env auxv).length % 2 = 1 then [0] else [])
    ∧ (build_stack args env auxv).head? = some args.length
    ∧ (build_stack args env auxv).length % 2 = 0 := by
  have hlist : ((((([args.length] ++ args) ++ [0]) ++ env) ++ [0])
      ++ auxv.flatMap (fun v => [v.1, v.2])) ++ [0, 0] = stackCore args env auxv := by
    simp [stackCore]
  have hb : build_stack args env auxv
      = if (stackCore args env auxv).length % 2 = 1
        then stackCore args env auxv ++ [0] else stackCore args env auxv := by
    unfold build_stack
    rw [hlist]
    by_cases hp : (stackCore args env auxv).length % 2 = 1
    · rw [if_pos hp, if_pos]
      simp [hp]
    · rw [if_neg hp, if_neg]
      simp [hp]
  refine ⟨?_, ?_, ?_⟩
  · rw [hb]
    by_cases hp : (stackCore args env auxv).length % 2 = 1
    · rw [if_pos hp, if_pos hp]
    · rw [if_neg hp, if_neg hp, List.append_nil]
  · rw [hb]
    by_cases hp : (stackCore args env auxv).length % 2 = 1
    · rw [if_pos hp]
      simp [stackCore]
    · rw [if_neg hp]
      simp [stackCore]
  · rw [hb]
    by_cases hp : (stackCore args env auxv).length % 2 = 1
    · rw [if_pos hp]
      simp only [List.length_append, List.length_cons, List.length_nil]
      omega
    · rw [if_neg hp]
      omega

/-! ## TLS engine (src/process.rs:451-508 and 657-677) -/

/-- `file.segment_of_type(t)`: the first program header of the given type. -/
def segment_of_type (f : FileModel) (t : SegmentType) : Option PH :=
  f.phs.find? (fun ph => ph.type == t)

/-- The `allocate_tls` scan (src/process.rs:454-466): walk objects in load
order keeping the running `storage_space`; each object whose TLS segment has
nonzero `memsz` contributes the triple `(base, memsz, offset)` with
`offset = storage_space + memsz` (the value inserted into `offsets`). -/
def tlsScan : Nat → List Object → List (Nat × Nat × Nat)
  | _, [] => []
  | sofar, o :: rest =>
    match segment_of_type o.file .TLS with
    | some ph =>
      if 0 < ph.memsz then
        (o.base, ph.memsz, sofar + ph.memsz) :: tlsScan (sofar + ph.memsz) rest
      else tlsScan sofar rest
    | none => tlsScan sofar rest

/-- The final `storage_space` of the same scan. -/
def tlsStorageFrom : Nat → List Object → Nat
  | sofar, [] => sofar
  | sofar, o :: rest =>
    match segment_of_type o.file .TLS with
    | some ph =>
      if 0 < ph.memsz then tlsStorageFrom (sofar + ph.memsz) rest
      else tlsStorageFrom sofar rest
    | none => tlsStorageFrom sofar rest

/-- The `offsets` HashMap built by `allocate_tls`: inserts in scan order,
later inserts overwriting earlier ones. -/
def tls_offsets (objs : List Object) : Nat → Option Nat :=
  (tlsScan 0 objs).foldl (fun f t => fun x => if x = t.1 then some t.2.2 else f x)
    (fun _ => none)

/-- The four little-endian bytes of a 32-bit value. -/
def le32 (v : Nat) : List Nat :=
  [v % 256, v / 256 % 256, v / 256 ^ 2 % 256, v / 256 ^ 3 % 256]

/-- The 704-byte `tcbhead_t`-compatible tail built at src/process.rs:483-494:
tcb, dtv, thread pointer, multiple_threads, gscope_flag, sysinfo, stack
guard, pointer guard, zero padding up to capacity. -/
def tcbheadBytes (tcb_addr : Nat) : List Nat :=
  le64 tcb_addr ++ le64 0 ++ le64 tcb_addr ++ le32 0 ++ le32 0 ++ le64 0
    ++ le64 0xDEADBEEF ++ le64 0xFEEDFACE ++ List.replicate (704 - 56) 0

/-- `Process::<Loading>::allocate_tls` as a memory transformer: the block is
placed at `blockPtr` (the allocator's choice), its first `storage_space`
bytes are zeroed, the `tcbhead` follows at `tcb_addr = blockPtr + storage`.
Returns the new memory and `tcb_addr`. -/
def allocate_tls_mem (objs : List Object) (blockPtr : Nat) (m : Mem) : Mem × Nat :=
  let storage := tlsStorageFrom 0 objs
  let tcb_addr := blockPtr + storage
  (writeBytes (writeBytes m blockPtr (List.replicate storage 0)) tcb_addr
    (tcbheadBytes tcb_addr), tcb_addr)

/-- `Process::<Relocated>::initialize_tls` (src/process.rs:657): for each
object with a TLS segment whose base has an entry in `offsets`, copy
`filesz` template bytes from `obj.base + ph.vaddr` to `tcb_addr - offset`. -/
def initialize_tls (tcb_addr : Nat) (offsets : Nat → Option Nat) :
    Mem → List Object → Mem
  | m, [] => m
  | m, o :: rest =>
    match segment_of_type o.file .TLS with
    | some ph =>
      match offsets o.base with
      | some off =>
        initialize_tls tcb_addr offsets
          (writeBytes m (tcb_addr - off)
            ((List.range ph.filesz).map (fun k => m (o.base + ph.vaddr + k)))) rest
      | none => initialize_tls tcb_addr offsets m rest
    | none => initialize_tls tcb_addr offsets m rest

theorem getD_replicate_zero (n k : Nat) : (List.replicate n (0:Nat)).getD k 0 = 0 := by
  simp only [List.getD, List.get?_eq_getElem?, List.getElem?_replicate]
  by_cases h : k < n <;> simp [h]

theorem tlsScan_cons_some (s : Nat) (o : Object) (rest : List Object) (ph : PH)
    (hseg : segment_of_type o.file .TLS = some ph) :
    tlsScan s (o :: rest)
      = if 0 < ph.memsz then
          (o.base, ph.memsz, s + ph.memsz) :: tlsScan (s + ph.memsz) rest
        else tlsScan s rest := by
  rw [tlsScan, hseg]

theorem tlsScan_cons_none (s : Nat) (o : Object) (rest : List Object)
    (hseg : segment_of_type o.file .TLS = none) :
    tlsScan s (o :: rest) = tlsScan s rest := by
  rw [tlsScan, hseg]

theorem tlsStorageFrom_cons_some (s : Nat) (o : Object) (rest : List Object) (ph : PH)
    (hseg : segment_of_type o.file .TLS = some ph) :
    tlsStorageFrom s (o :: rest)
      = if 0 < ph.memsz then tlsStorageFrom (s + ph.memsz) rest
        else tlsStorageFrom s rest := by
  rw [tlsStorageFrom, hseg]

theorem tlsStorageFrom_cons_none (s : Nat) (o : Object) (rest : List Object)
    (hseg : segment_of_type o.file .TLS = none) :
    tlsStorageFrom s (o :: rest) = tlsStorageFrom s rest := by
  rw [tlsStorageFrom, hseg]

theorem tlsStorageFrom_le (objs : List Object) : ∀ s : Nat, s ≤ tlsStorageFrom s objs := by
  induction objs with
  | nil => intro s; exact Nat.le_refl s
  | cons o rest ih =>
    intro s
    cases hseg : segment_of_type o.file .TLS with
    | none =>
      rw [tlsStorageFrom_cons_none s o rest hseg]
      exact ih s
    | some ph =>
      rw [tlsStorageFrom_cons_some s o rest ph hseg]
      by_cases h : 0 < ph.memsz
      · rw [if_pos h]
        exact Nat.le_trans (Nat.le_add_right s ph.memsz) (ih (s + ph.memsz))
      · rw [if_neg h]
        exact ih s

theorem tlsScan_mem_bounds (objs : List Object) : ∀ (s : Nat) (t : Nat × Nat × Nat),
    t ∈ tlsScan s objs →
    0 < t.2.1 ∧ s + t.2.1 ≤ t.2.2 ∧ t.2.2 ≤ tlsStorageFrom s objs := by
  induction objs with
  | nil => intro s t ht; cases ht
  | cons o rest ih =>
    intro s t ht
    cases hseg : segment_of_type o.file .TLS with
    | none =>
      rw [tlsScan_cons_none s o rest hseg] at ht
      rw [tlsStorageFrom_cons_none s o rest hseg]
      exact ih s t ht
    | some ph =>
      rw [tlsScan_cons_some s o rest ph hseg] at ht
      rw [tlsStorageFrom_cons_some s o rest ph hseg]
      by_cases h : 0 < ph.memsz
      · rw [if_pos h] at ht
        rw [if_pos h]
        rcases List.mem_cons.mp ht with he | ht2
        · subst he
          refine ⟨h, Nat.le_refl _, ?_⟩
          exact tlsStorageFrom_le rest (s + ph.memsz)
        · have := ih (s + ph.memsz) t ht2
          exact ⟨this.1, by omega, this.2.2⟩
      · rw [if_neg h] at ht
        rw [if_neg h]
        exact ih s t ht

theorem tlsScan_pairwise (objs : List Object) : ∀ s : Nat,
    List.Pairwise (fun t u : Nat × Nat × Nat => t.2.2 + u.2.1 ≤ u.2.2) (tlsScan s objs) := by
  induction objs with
  | nil => intro s; rw [tlsScan]; exact List.Pairwise.nil
  | cons o rest ih =>
    intro s
    cases hseg : segment_of_type o.file .TLS with
    | none =>
      rw [tlsScan_cons_none s o rest hseg]
      exact ih s
    | some ph =>
      rw [tlsScan_cons_some s o rest ph hseg]
      by_cases h : 0 < ph.memsz
      · rw [if_pos h]
        refine List.Pairwise.cons ?_ (ih (s + ph.memsz))
        intro u hu
        have hb := tlsScan_mem_bounds rest (s + ph.memsz) u hu
        simp only
        omega
      · rw [if_neg h]
        exact ih s

theorem tlsScan_shape (objs : List Object) : ∀ (s : Nat) (t : Nat × Nat × Nat),
    t ∈ tlsScan s objs →
    ∃ o ∈ objs, o.base = t.1 ∧ ∃ ph, segment_of_type o.file .TLS = some ph
      ∧ t.2.1 = ph.memsz ∧ 0 < ph.memsz := by
  induction objs with
  | nil => intro s t ht; cases ht
  | cons o rest ih =>
    intro s t ht
    cases hseg : segment_of_type o.file .TLS with
    | none =>
      rw [tlsScan_cons_none s o rest hseg] at ht
      obtain ⟨o2, ho2, rest2⟩ := ih s t ht
      exact ⟨o2, List.mem_cons_of_mem _ ho2, rest2⟩
    | some ph =>
      rw [tlsScan_cons_some s o rest ph hseg] at ht
      by_cases h : 0 < ph.memsz
      · rw [if_pos h] at ht
        rcases List.mem_cons.mp ht with he | ht2
        · subst he
          exact ⟨o, List.mem_cons_self _ _, rfl, ph, hseg, rfl, h⟩
        · obtain ⟨o2, ho2, rest2⟩ := ih (s + ph.memsz) t ht2
          exact ⟨o2, List.mem_cons_of_mem _ ho2, rest2⟩
      · rw [if_neg h] at ht
        obtain ⟨o2, ho2, rest2⟩ := ih s t ht
        exact ⟨o2, List.mem_cons_of_mem _ ho2, rest2⟩

theorem foldlUpd_some (l : List (Nat × Nat × Nat)) :
    ∀ (g : Nat → Option Nat) (b v : Nat),
    l.foldl (fun f t => fun x => if x = t.1 then some t.2.2 else f x) g b = some v →
    (∃ t ∈ l, t.1 = b ∧ t.2.2 = v) ∨ g b = some v := by
  induction l with
  | nil => intro g b v h; exact Or.inr h
  | cons t rest ih =>
    intro g b v h
    rw [List.foldl_cons] at h
    rcases ih _ b v h with ⟨u, hu, he⟩ | hg
    · exact Or.inl ⟨u, List.mem_cons_of_mem _ hu, he⟩
    · by_cases hb : b = t.1
      · rw [if_pos hb] at hg
        exact Or.inl ⟨t, List.mem_cons_self _ _, hb.symm, Option.some.inj hg⟩
      · rw [if_neg hb] at hg
        exact Or.inr hg

/-- A `some` result of the offsets map always comes from a scan triple. -/
theorem tls_offsets_some (objs : List Object) (b v : Nat)
    (h : tls_offsets objs b = some v) : ∃ t ∈ tlsScan 0 objs, t.1 = b ∧ t.2.2 = v := by
  rcases foldlUpd_some (tlsScan 0 objs) (fun _ => none) b v h with hok | hnone
  · exact hok
  · cases hnone

theorem initialize_tls_cons_write (tcb : Nat) (offs : Nat → Option Nat) (m : Mem)
    (o : Object) (rest : List Object) (ph : PH) (off : Nat)
    (hseg : segment_of_type o.file .TLS = some ph) (hoff : offs o.base = some off) :
    initialize_tls tcb offs m (o :: rest)
      = initialize_tls tcb offs
          (writeBytes m (tcb - off)
            ((List.range ph.filesz).map (fun k => m (o.base + ph.vaddr + k)))) rest := by
  rw [initialize_tls, hseg, hoff]

theorem initialize_tls_cons_nooff (tcb : Nat) (offs : Nat → Option Nat) (m : Mem)
    (o : Object) (rest : List Object) (ph : PH)
    (hseg : segment_of_type o.file .TLS = some ph) (hoff : offs o.base = none) :
    initialize_tls tcb offs m (o :: rest) = initialize_tls tcb offs m rest := by
  rw [initialize_tls, hseg, hoff]

theorem initialize_tls_cons_noseg (tcb : Nat) (offs : Nat → Option Nat) (m : Mem)
    (o : Object) (rest : List Object)
    (hseg : segment_of_type o.file .TLS = none) :
    initialize_tls tcb offs m (o :: rest) = initialize_tls tcb offs m rest := by
  rw [initialize_tls, hseg]

theorem initialize_tls_frame (tcb : Nat) (offs : Nat → Option Nat) (a n : Nat) :
    ∀ (objsL : List Object) (m : Mem),
    (∀ o2 ∈ objsL, ∀ ph2 off2, segment_of_type o2.file .TLS = some ph2 →
      offs o2.base = some off2 → rangesDisjoint (tcb - off2, ph2.filesz) (a, n)) →
    ∀ x, a ≤ x → x < a + n → initialize_tls tcb offs m objsL x = m x := by
  intro objsL
  induction objsL with
  | nil => intro m _ x _ _; rfl
  | cons o rest ih =>
    intro m hdis x hx1 hx2
    cases hseg : segment_of_type o.file .TLS with
    | none =>
      rw [initialize_tls_cons_noseg tcb offs m o rest hseg]
      exact ih m (fun o2 ho2 => hdis o2 (List.mem_cons_of_mem _ ho2)) x hx1 hx2
    | some ph =>
      cases hoff : offs o.base with
      | none =>
        rw [initialize_tls_cons_nooff tcb offs m o rest ph hseg hoff]
        exact ih m (fun o2 ho2 => hdis o2 (List.mem_cons_of_mem _ ho2)) x hx1 hx2
      | some off =>
        rw [initialize_tls_cons_write tcb offs m o rest ph off hseg hoff]
        rw [ih _ (fun o2 ho2 => hdis o2 (List.mem_cons_of_mem _ ho2)) x hx1 hx2]
        apply writeBytes_notin
        have hd := hdis o (List.mem_cons_self _ _) ph off hseg hoff
        simp only [rangesDisjoint] at hd
        simp only [List.length_map, List.length_range]
        omega

theorem initialize_tls_append (tcb : Nat) (offs : Nat → Option Nat) :
    ∀ (l1 l2 : List Object) (m : Mem),
    initialize_tls tcb offs m (l1 ++ l2)
      = initialize_tls tcb offs (initialize_tls tcb offs m l1) l2 := by
  intro l1
  induction l1 with
  | nil => intro l2 m; rfl
  | cons o rest ih =>
    intro l2 m
    rw [List.cons_append]
    cases hseg : segment_of_type o.file .TLS with
    | none =>
      rw [initialize_tls_cons_noseg tcb offs m o (rest ++ l2) hseg,
          initialize_tls_cons_noseg tcb offs m o rest hseg, ih]
    | some ph =>
      cases hoff : offs o.base with
      | none =>
        rw [initialize_tls_cons_nooff tcb offs m o (rest ++ l2) ph hseg hoff,
            initialize_tls_cons_nooff tcb offs m o rest ph hseg hoff, ih]
      | some off =>
        rw [initialize_tls_cons_write tcb offs m o (rest ++ l2) ph off hseg hoff,
            initialize_tls_cons_write tcb offs m o rest ph off hseg hoff, ih]

theorem getD_range_map (f : Nat → Nat) (n j : Nat) (hj : j < n) :
    ((List.range n).map f).getD j 0 = f j := by
  simp [List.getD, List.getElem?_map, List.getElem?_range, hj]

/-- C4: the TLS block's storage region is zeroed by `allocate_tls`, and after
`initialize_tls`, for every object `o` with a TLS segment whose base has an
entry `off` in the offsets map, the `filesz` template bytes at
`o.base + ph.vaddr` appear at `tcb_addr - off`, and the following
`memsz - filesz` bytes of the slot are still zero.  Hypotheses: object bases
are distinct, every TLS segment has `filesz ≤ memsz`, TLS templates live
outside the freshly allocated block, and the storage region is zero when
initialization starts (as `allocate_tls` established). -/
theorem c4_tls_initialization :
    (∀ (objs : List Object) (blockPtr : Nat) (m0 : Mem) (x : Nat),
      blockPtr ≤ x → x < blockPtr + tlsStorageFrom 0 objs →
      (allocate_tls_mem objs blockPtr m0).1 x = 0)
    ∧ (∀ (objs : List Object) (blockPtr : Nat) (mRel : Mem)
        (o : Object) (ph : PH) (off : Nat),
      o ∈ objs →
      (objs.map Object.base).Nodup →
      segment_of_type o.file .TLS = some ph →
      tls_offsets objs o.base = some off →
      (∀ o2 ∈ objs, ∀ ph2, segment_of_type o2.file .TLS = some ph2 →
        ph2.filesz ≤ ph2.memsz) →
      (∀ o2 ∈ objs, ∀ ph2, segment_of_type o2.file .TLS = some ph2 →
        rangesDisjoint (o2.base + ph2.vaddr, ph2.filesz)
          (blockPtr, tlsStorageFrom 0 objs + 704)) →
      (∀ x, blockPtr ≤ x → x < blockPtr + tlsStorageFrom 0 objs → mRel x = 0) →
      (∀ j, j < ph.filesz →
        initialize_tls (blockPtr + tlsStorageFrom 0 objs) (tls_offsets objs) mRel objs
          (blockPtr + tlsStorageFrom 0 objs - off + j)
          = mRel (o.base + ph.vaddr + j))
      ∧ (∀ j, ph.filesz ≤ j → j < ph.memsz →
        initialize_tls (blockPtr + tlsStorageFrom 0 objs) (tls_offsets objs) mRel objs
          (blockPtr + tlsStorageFrom 0 objs - off + j) = 0)) := by
  constructor
  · intro objs blockPtr m0 x h1 h2
    show writeBytes
        (writeBytes m0 blockPtr (List.replicate (tlsStorageFrom 0 objs) 0))
        (blockPtr + tlsStorageFrom 0 objs)
        (tcbheadBytes (blockPtr + tlsStorageFrom 0 objs)) x = 0
    rw [writeBytes_notin _ _ _ _ (Or.inl (by omega))]
    have hx : writeBytes m0 blockPtr (List.replicate (tlsStorageFrom 0 objs) 0) x
        = (List.replicate (tlsStorageFrom 0 objs) (0:Nat)).getD (x - blockPtr) 0 := by
      unfold writeBytes
      rw [if_pos]
      simp only [List.length_replicate]
      omega
    rw [hx, getD_replicate_zero]
  · intro objs blockPtr mRel o ph off ho hnd hseg hoff hfm hdisj hzero
    -- identify the scan triple behind `off`
    obtain ⟨t, htmem, htb, htv⟩ := tls_offsets_some objs o.base off hoff
    obtain ⟨o3, ho3, hb3, ph3, hseg3, hm3, hpos3⟩ := tlsScan_shape objs 0 t htmem
    have ho3o : o3 = o := List.inj_on_of_nodup_map hnd ho3 ho (by rw [hb3, htb])
    rw [ho3o] at hseg3
    have hph3 : ph3 = ph := Option.some.inj (hseg3.symm.trans hseg)
    rw [hph3] at hm3 hpos3
    have hbt := tlsScan_mem_bounds objs 0 t htmem
    have hmemoff : ph.memsz ≤ off := by
      have := hbt.2.1
      rw [htv] at this
      rw [hm3] at this
      omega
    have hoffS : off ≤ tlsStorageFrom 0 objs := by
      have := hbt.2.2
      rw [htv] at this
      exact this
    -- every offsets-backed write stays inside the storage region
    have hwib : ∀ o2 ∈ objs, ∀ ph2 off2, segment_of_type o2.file .TLS = some ph2 →
        tls_offsets objs o2.base = some off2 →
        ph2.filesz ≤ ph2.memsz ∧ ph2.memsz ≤ off2 ∧ off2 ≤ tlsStorageFrom 0 objs := by
      intro o2 ho2 ph2 off2 hseg2 hoff2
      obtain ⟨u, humem, hub, huv⟩ := tls_offsets_some objs o2.base off2 hoff2
      obtain ⟨o4, ho4, hb4, ph4, hseg4, hm4, hpos4⟩ := tlsScan_shape objs 0 u humem
      have ho4o : o4 = o2 := List.inj_on_of_nodup_map hnd ho4 ho2 (by rw [hb4, hub])
      rw [ho4o] at hseg4
      have hph4 : ph4 = ph2 := Option.some.inj (hseg4.symm.trans hseg2)
      rw [hph4] at hm4
      have hbu := tlsScan_mem_bounds objs 0 u humem
      refine ⟨hfm o2 ho2 ph2 hseg2, ?_, ?_⟩
      · have := hbu.2.1
        rw [huv] at this
        rw [hm4] at this
        omega
      · have := hbu.2.2
        rw [huv] at this
        exact this
    -- writes of objects with a different base land in slots disjoint from o's
    have hslot : ∀ o2 ∈ objs, ∀ ph2 off2, segment_of_type o2.file .TLS = some ph2 →
        tls_offsets objs o2.base = some off2 → o2.base ≠ o.base →
        rangesDisjoint (blockPtr + tlsStorageFrom 0 objs - off2, ph2.filesz)
          (blockPtr + tlsStorageFrom 0 objs - off, ph.memsz) := by
      intro o2 ho2 ph2 off2 hseg2 hoff2 hne
      obtain ⟨u, humem, hub, huv⟩ := tls_offsets_some objs o2.base off2 hoff2
      obtain ⟨o4, ho4, hb4, ph4, hseg4, hm4, hpos4⟩ := tlsScan_shape objs 0 u humem
      have ho4o : o4 = o2 := List.inj_on_of_nodup_map hnd ho4 ho2 (by rw [hb4, hub])
      rw [ho4o] at hseg4
      have hph4 : ph4 = ph2 := Option.some.inj (hseg4.symm.trans hseg2)
      rw [hph4] at hm4
      have hbu := tlsScan_mem_bounds objs 0 u humem
      have hmemoff2 : ph2.memsz ≤ off2 := by
        have := hbu.2.1
        rw [huv] at this
        rw [hm4] at this
        omega
      have hoffS2 : off2 ≤ tlsStorageFrom 0 objs := by
        have := hbu.2.2
        rw [huv] at this
        exact this
      have hfm2 : ph2.filesz ≤ ph2.memsz := hfm o2 ho2 ph2 hseg2
      have htu : t ≠ u := by
        intro he
        apply hne
        rw [← hub, ← he]
        exact htb
      have hsym : Symmetric (fun a b : Nat × Nat × Nat =>
          (a.2.2 + b.2.1 ≤ b.2.2) ∨ (b.2.2 + a.2.1 ≤ a.2.2)) := by
        intro a b h
        exact h.symm
      have hpw := ((tlsScan_pairwise objs 0).imp
        (fun {a b} h => (Or.inl h : (a.2.2 + b.2.1 ≤ b.2.2) ∨ (b.2.2 + a.2.1 ≤ a.2.2)))).forall
        hsym htmem humem htu
      unfold rangesDisjoint
      simp only
      rcases hpw with h1 | h2
      · rw [htv, hm4, huv] at h1
        omega
      · rw [huv, hm3, htv] at h2
        omega
    -- split the object list at o
    obtain ⟨pre, post, hsplit⟩ := List.mem_iff_append.mp ho
    have hmap : objs.map Object.base
        = pre.map Object.base ++ o.base :: post.map Object.base := by
      rw [hsplit]
      simp
    have hnd2 : (pre.map Object.base ++ o.base :: post.map Object.base).Nodup := by
      rw [← hmap]
      exact hnd
    have hbase_not : o.base ∉ pre.map Object.base ++ post.map Object.base :=
      (List.nodup_cons.mp (List.nodup_middle.mp hnd2)).1
    have hpre_ne : ∀ o2 ∈ pre, o2.base ≠ o.base := by
      intro o2 ho2 he
      apply hbase_not
      apply List.mem_append_left
      rw [← he]
      exact List.mem_map_of_mem Object.base ho2
    have hpost_ne : ∀ o2 ∈ post, o2.base ≠ o.base := by
      intro o2 ho2 he
      apply hbase_not
      apply List.mem_append_right
      rw [← he]
      exact List.mem_map_of_mem Object.base ho2
    have hpre_sub : ∀ o2 ∈ pre, o2 ∈ objs := by
      intro o2 ho2
      rw [hsplit]
      exact List.mem_append_left _ ho2
    have hpost_sub : ∀ o2 ∈ post, o2 ∈ objs := by
      intro o2 ho2
      rw [hsplit]
      exact List.mem_append_right _ (List.mem_cons_of_mem _ ho2)
    -- the pre-pass does not disturb o's template source
    have hframe_src : ∀ x, o.base + ph.vaddr ≤ x → x < o.base + ph.vaddr + ph.filesz →
        initialize_tls (blockPtr + tlsStorageFrom 0 objs) (tls_offsets objs) mRel pre x
          = mRel x := by
      apply initialize_tls_frame
      intro o2 ho2 ph2 off2 hseg2 hoff2
      have hw := hwib o2 (hpre_sub o2 ho2) ph2 off2 hseg2 hoff2
      have hdd := hdisj o (by rw [hsplit]; exact List.mem_append_right _ (List.mem_cons_self _ _)) ph hseg
      unfold rangesDisjoint at hdd ⊢
      simp only at hdd ⊢
      omega
    -- the pre-pass does not disturb o's slot
    have hframe_pre_slot : ∀ x, blockPtr + tlsStorageFrom 0 objs - off ≤ x →
        x < blockPtr + tlsStorageFrom 0 objs - off + ph.memsz →
        initialize_tls (blockPtr + tlsStorageFrom 0 objs) (tls_offsets objs) mRel pre x
          = mRel x := by
      apply initialize_tls_frame
      intro o2 ho2 ph2 off2 hseg2 hoff2
      exact hslot o2 (hpre_sub o2 ho2) ph2 off2 hseg2 hoff2 (hpre_ne o2 ho2)
    -- the post-pass does not disturb o's slot either
    have hframe_post : ∀ (m : Mem) (x : Nat), blockPtr + tlsStorageFrom 0 objs - off ≤ x →
        x < blockPtr + tlsStorageFrom 0 objs - off + ph.memsz →
        initialize_tls (blockPtr + tlsStorageFrom 0 objs) (tls_offsets objs) m post x
          = m x := by
      intro m
      apply initialize_tls_frame
      intro o2 ho2 ph2 off2 hseg2 hoff2
      exact hslot o2 (hpost_sub o2 ho2) ph2 off2 hseg2 hoff2 (hpost_ne o2 ho2)
    -- run the pass
    have hfmo : ph.filesz ≤ ph.memsz := hfm o ho ph hseg
    have hrun : initialize_tls (blockPtr + tlsStorageFrom 0 objs) (tls_offsets objs)
        mRel objs
        = initialize_tls (blockPtr + tlsStorageFrom 0 objs) (tls_offsets objs)
          (writeBytes
            (initialize_tls (blockPtr + tlsStorageFrom 0 objs) (tls_offsets objs) mRel pre)
            (blockPtr + tlsStorageFrom 0 objs - off)
            ((List.range ph.filesz).map (fun k =>
              initialize_tls (blockPtr + tlsStorageFrom 0 objs) (tls_offsets objs) mRel pre
                (o.base + ph.vaddr + k)))) post := by
      have hrw := congrArg
        (initialize_tls (blockPtr + tlsStorageFrom 0 objs) (tls_offsets objs) mRel) hsplit
      rw [initialize_tls_append,
          initialize_tls_cons_write _ _ _ _ _ ph off hseg hoff] at hrw
      exact hrw
    constructor
    · intro j hj
      rw [hrun]
      rw [hframe_post _ _ (by omega) (by omega)]
      have hlen : ((List.range ph.filesz).map (fun k =>
          initialize_tls (blockPtr + tlsStorageFrom 0 objs) (tls_offsets objs) mRel pre
            (o.base + ph.vaddr + k))).length = ph.filesz := by
        simp
      have hw : writeBytes
          (initialize_tls (blockPtr + tlsStorageFrom 0 objs) (tls_offsets objs) mRel pre)
          (blockPtr + tlsStorageFrom 0 objs - off)
          ((List.range ph.filesz).map (fun k =>
            initialize_tls (blockPtr + tlsStorageFrom 0 objs) (tls_offsets objs) mRel pre
              (o.base + ph.vaddr + k)))
          (blockPtr + tlsStorageFrom 0 objs - off + j)
          = ((List.range ph.filesz).map (fun k =>
            initialize_tls (blockPtr + tlsStorageFrom 0 objs) (tls_offsets objs) mRel pre
              (o.base + ph.vaddr + k))).getD j 0 :=
        writeBytes_getD _ _ _ j (by rw [hlen]; exact hj)
      rw [hw, getD_range_map _ _ j hj]
      exact hframe_src (o.base + ph.vaddr + j) (by omega) (by omega)
    · intro j hj1 hj2
      rw [hrun]
      rw [hframe_post _ _ (by omega) (by omega)]
      have hw : writeBytes
          (initialize_tls (blockPtr + tlsStorageFrom 0 objs) (tls_offsets objs) mRel pre)
          (blockPtr + tlsStorageFrom 0 objs - off)
          ((List.range ph.filesz).map (fun k =>
            initialize_tls (blockPtr + tlsStorageFrom 0 objs) (tls_offsets objs) mRel pre
              (o.base + ph.vaddr + k)))
          (blockPtr + tlsStorageFrom 0 objs - off + j)
          = initialize_tls (blockPtr + tlsStorageFrom 0 objs) (tls_offsets objs) mRel pre
            (blockPtr + tlsStorageFrom 0 objs - off + j) := by
        apply writeBytes_notin
        simp only [List.length_map, List.length_range]
        omega
      rw [hw]
      rw [hframe_pre_slot _ (by omega) (by omega)]
      apply hzero
      · omega
      · omega

/-- Fixture for the C4 witness: one object with a TLS segment of
`filesz 2`, `memsz 4`, template at `0x1100`. -/
def c4Obj : Object :=
  { defaultObject with
    base := 4096
    file := { defaultFileModel with
      phs := [{ type := .TLS, vaddr := 256, filesz := 2, memsz := 4, offset := 0 }] } }

/-- Post-relocation memory for the C4 witness: template bytes 7, 9. -/
def c4Mem : Mem := fun a => if a = 4352 then 7 else if a = 4353 then 9 else 0

theorem c4_tls_initialization_witness :
    (allocate_tls_mem [c4Obj] 65536 (fun _ => 5)).1 65537 = 0
    ∧ initialize_tls (65536 + tlsStorageFrom 0 [c4Obj]) (tls_offsets [c4Obj]) c4Mem [c4Obj]
        (65536 + tlsStorageFrom 0 [c4Obj] - 4 + 0) = c4Mem (4096 + 256 + 0)
    ∧ initialize_tls (65536 + tlsStorageFrom 0 [c4Obj]) (tls_offsets [c4Obj]) c4Mem [c4Obj]
        (65536 + tlsStorageFrom 0 [c4Obj] - 4 + 3) = 0 := by
  have hphw : segment_of_type c4Obj.file .TLS
      = some { type := .TLS, vaddr := 256, filesz := 2, memsz := 4, offset := 0 } := by
    decide
  have h := c4_tls_initialization.2 [c4Obj] 65536 c4Mem c4Obj
    { type := .TLS, vaddr := 256, filesz := 2, memsz := 4, offset := 0 } 4
    (List.mem_cons_self _ _) (by decide) hphw (by decide)
    (by
      intro o2 ho2 ph2 hseg2
      rcases List.mem_cons.mp ho2 with rfl | h0
      · rw [hphw] at hseg2
        rw [← Option.some.inj hseg2]
        decide
      · cases h0)
    (by
      intro o2 ho2 ph2 hseg2
      rcases List.mem_cons.mp ho2 with rfl | h0
      · rw [hphw] at hseg2
        rw [← Option.some.inj hseg2]
        decide
      · cases h0)
    (by
      intro x h1 h2
      show (if x = 4352 then 7 else if x = 4353 then 9 else 0) = 0
      rw [if_neg (by omega), if_neg (by omega)])
  exact ⟨c4_tls_initialization.1 [c4Obj] 65536 (fun _ => 5) 65537 (by decide) (by decide),
    h.1 0 (by decide), h.2 3 (by decide) (by decide)⟩

/-! ## Name (src/name.rs) -/

/-- `Name::mapped(map, offset)` (src/name.rs:24): scan the mapped slice from
`offset` for a NUL byte; on success the `Mapped` range is
`offset .. offset + position`.  `none` models the `expect` panic taken when
no NUL byte occurs anywhere after `offset`. -/
def Name.mapped (bytes : List Nat) (offset : Nat) : Option (Nat × Nat) :=
  match (bytes.drop offset).findIdx? (fun c => c == 0) with
  | some len => some (offset, offset + len)
  | none => none

theorem findIdx?_all_false_append (p : Nat → Bool) (y : Nat) (hy : p y = true) :
    ∀ (l : List Nat) (i : Nat), (∀ x ∈ l, p x = false) →
    List.findIdx? p (l ++ [y]) i = some (i + l.length) := by
  intro l
  induction l with
  | nil =>
    intro i _
    rw [List.nil_append, List.findIdx?, hy]
    simp
  | cons a t ih =>
    intro i hall
    rw [List.cons_append, List.findIdx?, hall a (List.mem_cons_self _ _),
        if_neg (by decide)]
    rw [ih (i + 1) (fun x hx => hall x (List.mem_cons_of_mem _ hx))]
    simp only [List.length_cons]
    rw [Nat.add_comm t.length 1, ← Nat.add_assoc]

/-- C7 (code-bug evidence): on a mapping whose first NUL after the offset
sits at index 2049 — i.e. no NUL within the claimed 2048-byte window — the
scan still succeeds and returns the range `0..2049`: the code scans to the
end of the mapping, with no 2048-byte bound. -/
theorem c7_name_mapped_no_window :
    Name.mapped (List.replicate 2049 1 ++ [0]) 0 = some (0, 2049)
    ∧ ∀ k, k < 2048 → (List.replicate 2049 1 ++ [0])[k]? = some 1 := by
  constructor
  · have hidx : List.findIdx? (fun c => c == 0)
        ((List.replicate 2049 1 ++ [0]).drop 0) 0 = some 2049 := by
      rw [List.drop_zero]
      rw [findIdx?_all_false_append (fun c => c == 0) 0 rfl (List.replicate 2049 1) 0
        (fun x hx => by rw [List.eq_of_mem_replicate hx]; rfl)]
      rw [List.length_replicate, Nat.zero_add]
    unfold Name.mapped
    rw [hidx]
  · intro k hk
    rw [List.getElem?_append_left (by rw [List.length_replicate]; omega),
        List.getElem?_replicate_of_lt (by omega)]

/-! ## Loader (src/process.rs:235-449)

The filesystem and the allocator are parameters via `FS`: `canon` models
`Path::canonicalize` (succeeds only on existing paths and returns the
canonical form), `readFile` merges open/read (outer `Option`) with
`delf::File::parse_or_print_error` (inner `Option`), `parentDir` is
`path.parent()?.to_str()?`, and the per-file mmap outcomes live in the
`FileModel` itself (`reserveBase`, `segMapOk`). -/
structure FS where
  canon : String → Option String
  join : String → String → String
  parentDir : String → Option String
  readFile : String → Option (Option FileModel)

/-- `LoadError` (src/process.rs:145).  `IOError` stands for the source's `IO`
variant. -/
inductive LoadError
  | NotFound (name : String)
  | InvalidPath (path : String)
  | IOError (path : String)
  | ParseError (path : String)
  | NoLoadSegments
  | MapError
  | ReadSymsError
  | ReadRelaError
deriving DecidableEq, Repr

/-- `GetResult` (src/process.rs:176). -/
inductive GetResult
  | Cached (index : Nat)
  | Fresh (index : Nat)
deriving DecidableEq, Repr

/-- `GetResult::fresh` (src/process.rs:182). -/
def GetResult.fresh : GetResult → Option Nat
  | .Fresh index => some index
  | .Cached _ => none

/-- `Loader` (src/process.rs:191); `objects_by_path` is the HashMap as an
insertion list, most recent first. -/
structure Loader where
  search_path : List String
  objects : List Object
  objects_by_path : List (String × Nat)
deriving Repr

/-- HashMap lookup: the most recent insertion for the key. -/
def lookupPath (m : List (String × Nat)) (p : String) : Option Nat :=
  (m.find? (fun e => e.1 == p)).map Prod.snd

/-- `$ORIGIN` substitution of an RPATH entry (src/process.rs:311). -/
def substOrigin (origin r : String) : String := r.replace "$ORIGIN" origin

/-- The convex hull of the `mem_range`s of the load segments
(src/process.rs:322-328); `none` when there is no load segment. -/
def memRangeOf (file : FileModel) : Option (Nat × Nat) :=
  (file.phs.filter (fun ph => ph.type == .Load)).foldl
    (fun acc ph =>
      match acc with
      | none => some (ph.vaddr, ph.vaddr + ph.memsz)
      | some se => some (min se.1 ph.vaddr, max se.2 (ph.vaddr + ph.memsz)))
    none

/-- `vaddr & !0xFFF` (src/process.rs:341). -/
def alignDown (v : Nat) : Nat := v - v % 4096

/-- Wrapping 64-bit subtraction (`delf::Addr` arithmetic for
`base = map.data() - mem_range.start`). -/
def wsub (a b : Nat) : Nat := (((a : Int) - (b : Int)) % (2 ^ 64 : Int)).toNat

/-- The `Segment` records built per load segment with nonzero `memsz`
(src/process.rs:338-379). -/
def segmentsOf (file : FileModel) : List Segment :=
  ((file.phs.filter (fun ph => ph.type == .Load)).filter (fun ph => 0 < ph.memsz)).map
    (fun ph =>
      { vaddrStart := alignDown ph.vaddr
        vaddrEnd := ph.vaddr + ph.memsz
        padding := ph.vaddr - alignDown ph.vaddr })

/-- `Process::<Loading>::load_object` (src/process.rs:284).  The returned
state always carries any `RPATH`/`RUNPATH` search-path extension made after
parsing, but `objects`/`objects_by_path` are touched only on the success
path, at the very end.  Each per-segment mapping passes
`MapAddr(base + vaddr)` (src/process.rs:353), a fixed address: the kernel
rejects it with `EINVAL` — hence `MapError` — unless `base + vaddr` is
page-aligned, so that condition is checked here alongside `segMapOk`. -/
def load_object (fs : FS) (st : Loader) (path : String) : Loader × Except LoadError Nat :=
  match fs.canon path with
  | none => (st, .error (.IOError path))
  | some p =>
    match fs.readFile p with
    | none => (st, .error (.IOError p))
    | some none => (st, .error (.ParseError p))
    | some (some file) =>
      match fs.parentDir p with
      | none => (st, .error (.InvalidPath p))
      | some origin =>
        let st1 := { st with
          search_path := st.search_path ++ file.rpaths.map (substOrigin origin) }
        match memRangeOf file with
        | none => (st1, .error .NoLoadSegments)
        | some hull =>
          match file.reserveBase with
          | none => (st1, .error .MapError)
          | some data =>
            if file.segMapOk
                && (segmentsOf file).all
                  (fun s => (wsub data hull.1 + s.vaddrStart) % 4096 == 0) then
              match file.symsRes with
              | none => (st1, .error .ReadSymsError)
              | some syms =>
                match file.relsRes with
                | none => (st1, .error .ReadRelaError)
                | some rels =>
                  ({ st1 with
                      objects := st1.objects ++
                        [{ path := p, base := wsub data hull.1, file := file,
                           memRangeStart := hull.1, memRangeEnd := hull.2,
                           segments := segmentsOf file, syms := syms, rels := rels }],
                      objects_by_path := (p, st1.objects.length) :: st1.objects_by_path },
                   .ok st1.objects.length)
            else (st1, .error .MapError)

/-- `object_path` (src/process.rs:441): first existing canonical match along
the search path (`canon` already models canonicalize-if-exists, so `find`'s
`exists` check is the `isSome`). -/
def object_path (fs : FS) (st : Loader) (name : String) : Except LoadError String :=
  match (st.search_path.filterMap (fun pre => fs.canon (fs.join pre name))).head? with
  | some p => .ok p
  | none => .error (.NotFound name)

/-- `get_object` (src/process.rs:274). -/
def get_object (fs : FS) (st : Loader) (name : String) : Loader × Except LoadError GetResult :=
  match object_path fs st name with
  | .error e => (st, .error e)
  | .ok path =>
    match lookupPath st.objects_by_path path with
    | some index => (st, .ok (.Cached index))
    | none =>
      match load_object fs st path with
      | (st2, .ok index) => (st2, .ok (.Fresh index))
      | (st2, .error e) => (st2, .error e)

/-- One level's sequential `get_object` calls with `?`-style short-circuit
(the `collect::<Result<Vec<_>, _>>()` in src/process.rs:264-265). -/
def get_objects (fs : FS) : Loader → List String → Loader × Except LoadError (List GetResult)
  | st, [] => (st, .ok [])
  | st, n :: rest =>
    match get_object fs st n with
    | (st1, .error e) => (st1, .error e)
    | (st1, .ok g) =>
      match get_objects fs st1 rest with
      | (st2, .error e) => (st2, .error e)
      | (st2, .ok gs) => (st2, .ok (g :: gs))

/-- The breadth-first `while !a.is_empty()` loop of
`load_object_and_dependencies` (src/process.rs:255-269), with fuel: `none`
means the fuel ran out, never a verdict about the program. -/
def load_deps_loop (fs : FS) : Nat → Loader → List Nat → Option (Loader × Except LoadError Unit)
  | 0, _, _ => none
  | _ + 1, st, [] => some (st, .ok ())
  | fuel + 1, st, a =>
    match get_objects fs st
        (a.flatMap (fun index => (st.objects.getD index defaultObject).file.neededs)) with
    | (st1, .error e) => some (st1, .error e)
    | (st1, .ok gs) => load_deps_loop fs fuel st1 (gs.filterMap GetResult.fresh)

/-- `load_object_and_dependencies` (src/process.rs:248). -/
def load_object_and_dependencies (fs : FS) (fuel : Nat) (st : Loader) (path : String) :
    Option (Loader × Except LoadError Nat) :=
  match load_object fs st path with
  | (st1, .error e) => some (st1, .error e)
  | (st1, .ok index) =>
    match load_deps_loop fs fuel st1 [index] with
    | none => none
    | some (st2, .error e) => some (st2, .error e)
    | some (st2, .ok _) => some (st2, .ok index)

/-- `Process::new` (src/process.rs:236) with the search path generalized. -/
def freshLoader (sp : List String) : Loader :=
  { search_path := sp, objects := [], objects_by_path := [] }

/-- C9: `load_object` is atomic for the object list and the path index: on
any error — canonicalization, read, parse, invalid path, no load segments,
mapping, symbol read or relocation read — the returned state carries exactly
the caller's `objects` and `objects_by_path` (only the search path may have
been extended by RPATH entries). -/
theorem c9_load_object_atomic (fs : FS) (st : Loader) (path : String)
    (st2 : Loader) (e : LoadError)
    (h : load_object fs st path = (st2, .error e)) :
    st2.objects = st.objects ∧ st2.objects_by_path = st.objects_by_path := by
  unfold load_object at h
  repeat' split at h
  all_goals first
    | (cases h; exact ⟨rfl, rfl⟩)
    | simp at h

/-- Fixture for the C9 witness: a filesystem where nothing exists. -/
def c9fs : FS :=
  { canon := fun _ => none
    join := fun d n => d ++ "/" ++ n
    parentDir := fun _ => none
    readFile := fun _ => none }

theorem c9_load_object_atomic_witness :
    (load_object c9fs (freshLoader ["/usr/lib/x86_64-linux-gnu"]) "/bin/app").1.objects
      = (freshLoader ["/usr/lib/x86_64-linux-gnu"]).objects
    ∧ (load_object c9fs (freshLoader ["/usr/lib/x86_64-linux-gnu"]) "/bin/app").1.objects_by_path
      = (freshLoader ["/usr/lib/x86_64-linux-gnu"]).objects_by_path :=
  c9_load_object_atomic c9fs (freshLoader ["/usr/lib/x86_64-linux-gnu"]) "/bin/app"
    (load_object c9fs (freshLoader ["/usr/lib/x86_64-linux-gnu"]) "/bin/app").1
    (.IOError "/bin/app") rfl

/-- Success characterization of `load_object`: the only state change is an
optional search-path extension, the appended object, and the prepended path
index entry; the object's fields come straight from the parsed file. -/
theorem load_object_ok (fs : FS) (st : Loader) (path : String) (st2 : Loader) (i : Nat)
    (h : load_object fs st path = (st2, .ok i)) :
    ∃ p file hull data syms rels,
      fs.canon path = some p
      ∧ fs.readFile p = some (some file)
      ∧ memRangeOf file = some hull
      ∧ file.reserveBase = some data
      ∧ file.symsRes = some syms
      ∧ file.relsRes = some rels
      ∧ (file.segMapOk && (segmentsOf file).all
          (fun s => (wsub data hull.1 + s.vaddrStart) % 4096 == 0)) = true
      ∧ i = st.objects.length
      ∧ (∃ ext, st2.search_path = st.search_path ++ ext)
      ∧ st2.objects = st.objects ++
          [{ path := p, base := wsub data hull.1, file := file,
             memRangeStart := hull.1, memRangeEnd := hull.2,
             segments := segmentsOf file, syms := syms, rels := rels }]
      ∧ st2.objects_by_path = (p, st.objects.length) :: st.objects_by_path := by
  unfold load_object at h
  repeat' split at h
  all_goals simp only [Prod.mk.injEq] at h
  all_goals try exact Except.noConfusion h.2
  rename_i c1 p hp r1 file hf r2 origin hpar r3 hull hh r4 data hd hmap r5 syms hsy r6 rels hr
  refine ⟨p, file, hull, data, syms, rels, hp, hf, hh, hd, hsy, hr, hmap,
    (Except.ok.inj h.2).symm, ?_, ?_, ?_⟩
  · exact ⟨_, by rw [← h.1]⟩
  · rw [← h.1]
  · rw [← h.1]

/-- Every object already in the loader has each segment's
`base + vaddr_range.start` page-aligned. -/
def AllAligned (st : Loader) : Prop :=
  ∀ o ∈ st.objects, ∀ seg ∈ o.segments, (o.base + seg.vaddrStart) % 4096 = 0

/-- A successful `load_object` preserves `AllAligned`: the appended object
passed the per-segment `MAP_FIXED` alignment check. -/
theorem load_object_aligned (fs : FS) (st : Loader) (path : String) (st2 : Loader)
    (i : Nat) (h : load_object fs st path = (st2, .ok i)) (ha : AllAligned st) :
    AllAligned st2 := by
  obtain ⟨p, file, hull, data, syms, rels, hp, hf, hh, hd, hsy, hr, hmm, hi, hsp, hobjs,
    hmap⟩ := load_object_ok fs st path st2 i h
  intro o ho seg hseg
  rw [hobjs] at ho
  rcases List.mem_append.mp ho with hin | hnew
  · exact ha o hin seg hseg
  · have hoe : o = ⟨p, wsub data hull.1, file, hull.1, hull.2,
        segmentsOf file, syms, rels⟩ := by
      rcases List.mem_cons.mp hnew with he | hn
      · exact he
      · cases hn
    simp only [Bool.and_eq_true] at hmm
    obtain ⟨hok, hall⟩ := hmm
    rw [hoe] at hseg ⊢
    have hb := List.all_eq_true.mp hall seg hseg
    exact beq_iff_eq.mp hb

/-- A successful `get_object` preserves `AllAligned` (cached hits change
nothing; fresh loads go through `load_object`). -/
theorem get_object_aligned (fs : FS) (st : Loader) (n : String) (st2 : Loader)
    (g : GetResult) (h : get_object fs st n = (st2, .ok g)) (ha : AllAligned st) :
    AllAligned st2 := by
  unfold get_object at h
  split at h
  next e hop =>
    simp only [Prod.mk.injEq] at h
    exact absurd h.2 (by simp)
  next path hop =>
    split at h
    next index hlk =>
      simp only [Prod.mk.injEq] at h
      rw [← h.1]
      exact ha
    next hlk =>
      split at h
      next st3 index hload =>
        simp only [Prod.mk.injEq] at h
        rw [← h.1]
        exact load_object_aligned fs st path st3 index hload ha
      next st3 e hload =>
        simp only [Prod.mk.injEq] at h
        exact absurd h.2 (by simp)

/-- One level of sequential `get_object` calls preserves `AllAligned`. -/
theorem get_objects_aligned (fs : FS) :
    ∀ (names : List String) (st st2 : Loader) (gs : List GetResult),
    get_objects fs st names = (st2, .ok gs) → AllAligned st → AllAligned st2 := by
  intro names
  induction names with
  | nil =>
    intro st st2 gs h ha
    simp only [get_objects, Prod.mk.injEq] at h
    rw [← h.1]
    exact ha
  | cons n rest ih =>
    intro st st2 gs h ha
    simp only [get_objects] at h
    split at h
    next st1 e hg => simp at h
    next st1 g hg =>
      split at h
      next st3 e hgs => simp at h
      next st3 gs2 hgs =>
        simp only [Prod.mk.injEq] at h
        rw [← h.1]
        exact ih st1 st3 gs2 hgs (get_object_aligned fs st n st1 g hg ha)

/-! ## Dependency closure (claim C6) -/

/-- The loader state only grows: the search path and the object list are
extended at the end (index stability). -/
def Extends (st st2 : Loader) : Prop :=
  (∃ ext, st2.search_path = st.search_path ++ ext)
  ∧ (∃ objsExt, st2.objects = st.objects ++ objsExt)

/-- Path-map coherence: every `objects_by_path` entry names a loaded object. -/
def Coh (st : Loader) : Prop :=
  ∀ q i2, lookupPath st.objects_by_path q = some i2 → ∃ o2 ∈ st.objects, o2.path = q

/-- The needed name `n` resolves along the current search path to the path of
an already-loaded object. -/
def ResolvedLoaded (fs : FS) (st : Loader) (n : String) : Prop :=
  ∃ p, object_path fs st n = .ok p ∧ ∃ o2 ∈ st.objects, o2.path = p

theorem Extends.refl (st : Loader) : Extends st st :=
  ⟨⟨[], by simp⟩, ⟨[], by simp⟩⟩

theorem Extends.trans {a b c : Loader} (h1 : Extends a b) (h2 : Extends b c) :
    Extends a c := by
  obtain ⟨⟨e1, he1⟩, ⟨o1, ho1⟩⟩ := h1
  obtain ⟨⟨e2, he2⟩, ⟨o2, ho2⟩⟩ := h2
  exact ⟨⟨e1 ++ e2, by rw [he2, he1, List.append_assoc]⟩,
         ⟨o1 ++ o2, by rw [ho2, ho1, List.append_assoc]⟩⟩

theorem Extends.len_le {a b : Loader} (h : Extends a b) :
    a.objects.length ≤ b.objects.length := by
  obtain ⟨_, ⟨oe, hoe⟩⟩ := h
  rw [hoe, List.length_append]
  omega

theorem Extends.getD_eq {a b : Loader} (h : Extends a b) (k : Nat)
    (hk : k < a.objects.length) :
    b.objects.getD k defaultObject = a.objects.getD k defaultObject := by
  obtain ⟨_, ⟨oe, hoe⟩⟩ := h
  rw [hoe, List.getD_append _ _ _ _ hk]

theorem object_path_mono (fs : FS) {st st2 : Loader} (n p : String)
    (hext : Extends st st2) (h : object_path fs st n = .ok p) :
    object_path fs st2 n = .ok p := by
  obtain ⟨⟨ext, hsp⟩, _⟩ := hext
  unfold object_path at h ⊢
  rw [hsp, List.filterMap_append, List.head?_append]
  cases hh : (st.search_path.filterMap (fun pre => fs.canon (fs.join pre n))).head? with
  | none =>
    rw [hh] at h
    simp at h
  | some q =>
    rw [hh] at h
    exact h

theorem ResolvedLoaded.mono (fs : FS) {st st2 : Loader} (n : String)
    (hext : Extends st st2) (h : ResolvedLoaded fs st n) : ResolvedLoaded fs st2 n := by
  obtain ⟨p, hop, o2, ho2, hp2⟩ := h
  refine ⟨p, object_path_mono fs n p hext hop, o2, ?_, hp2⟩
  obtain ⟨_, ⟨oe, hoe⟩⟩ := hext
  rw [hoe]
  exact List.mem_append_left _ ho2

theorem object_path_src (fs : FS) (st : Loader) (n p : String)
    (h : object_path fs st n = .ok p) :
    ∃ d ∈ st.search_path, fs.canon (fs.join d n) = some p := by
  unfold object_path at h
  cases hh : (st.search_path.filterMap (fun pre => fs.canon (fs.join pre n))).head? with
  | none => rw [hh] at h; cases h
  | some q =>
    rw [hh] at h
    injection h with h
    subst h
    have hm := List.mem_of_mem_head? hh
    obtain ⟨d, hd, hc⟩ := List.mem_filterMap.mp hm
    exact ⟨d, hd, hc⟩

theorem load_object_extends (fs : FS) (st : Loader) (path : String) (st2 : Loader)
    (i : Nat) (h : load_object fs st path = (st2, .ok i)) : Extends st st2 := by
  obtain ⟨p, file, hull, data, syms, rels, _, _, _, _, _, _, _, _, hsp, hobjs, _⟩ :=
    load_object_ok fs st path st2 i h
  exact ⟨hsp, ⟨_, hobjs⟩⟩

theorem load_object_coh (fs : FS) (st : Loader) (path : String) (st2 : Loader)
    (i : Nat) (h : load_object fs st path = (st2, .ok i)) (hc : Coh st) : Coh st2 := by
  obtain ⟨p, file, hull, data, syms, rels, hp, hf, hh, hd, hsy, hr, _, hi, hsp, hobjs,
    hmap⟩ := load_object_ok fs st path st2 i h
  intro q i2 hq
  rw [hmap] at hq
  unfold lookupPath at hq
  rw [List.find?] at hq
  by_cases hpq : p = q
  · refine ⟨⟨p, wsub data hull.1, file, hull.1, hull.2, segmentsOf file, syms, rels⟩, ?_, hpq⟩
    rw [hobjs]
    exact List.mem_append_right _ (List.mem_cons_self _ _)
  · have hbeq : ((p, st.objects.length).1 == q) = false := by
      simp [hpq]
    rw [hbeq] at hq
    obtain ⟨o2, ho2, hqo⟩ := hc q i2 hq
    refine ⟨o2, ?_, hqo⟩
    rw [hobjs]
    exact List.mem_append_left _ ho2

theorem get_object_ok (fs : FS) (st : Loader) (n : String) (st2 : Loader) (g : GetResult)
    (hcanon : ∀ d m p, fs.canon (fs.join d m) = some p → fs.canon p = some p)
    (hc : Coh st) (h : get_object fs st n = (st2, .ok g)) :
    Extends st st2 ∧ Coh st2 ∧ ResolvedLoaded fs st2 n
    ∧ (∀ index, g = .Cached index → st2 = st)
    ∧ (∀ i2, g = .Fresh i2 → i2 = st.objects.length
        ∧ st2.objects.length = st.objects.length + 1) := by
  unfold get_object at h
  split at h
  next e hop =>
    simp only [Prod.mk.injEq] at h
    exact absurd h.2 (by simp)
  next path hop =>
    split at h
    next index hlk =>
      simp only [Prod.mk.injEq] at h
      obtain ⟨hst, hg⟩ := h
      have hg2 : GetResult.Cached index = g := Except.ok.inj hg
      subst hst
      refine ⟨Extends.refl st, hc, ⟨path, hop, hc path index hlk⟩, ?_, ?_⟩
      · intro k hk
        rfl
      · intro i2 hi2
        rw [← hg2] at hi2
        cases hi2
    next hlk =>
      split at h
      next st3 index hload =>
        simp only [Prod.mk.injEq] at h
        obtain ⟨hst, hg⟩ := h
        have hg2 : GetResult.Fresh index = g := Except.ok.inj hg
        subst hst
        obtain ⟨p2, file, hull, data, syms, rels, hp2, hf, hhl, hd, hsy, hr, _, hi,
          hsp, hobjs, hmap⟩ := load_object_ok fs st path st3 index hload
        have hpp : p2 = path := by
          obtain ⟨d, hdm, hdc⟩ := object_path_src fs st n path hop
          have := hcanon d n path hdc
          rw [this] at hp2
          exact (Option.some.inj hp2).symm
        have hext : Extends st st3 := ⟨hsp, ⟨_, hobjs⟩⟩
        refine ⟨hext, load_object_coh fs st path st3 index hload hc,
          ⟨path, object_path_mono fs n path hext hop, ?_⟩, ?_⟩
        · refine ⟨⟨p2, wsub data hull.1, file, hull.1, hull.2,
            segmentsOf file, syms, rels⟩, ?_, hpp⟩
          rw [hobjs]
          exact List.mem_append_right _ (List.mem_cons_self _ _)
        · refine ⟨?_, ?_⟩
          · intro k hk
            rw [← hg2] at hk
            cases hk
          · intro i2 hi2
            rw [← hg2] at hi2
            injection hi2 with hi2
            subst hi2
            refine ⟨hi, ?_⟩
            rw [hobjs, List.length_append]
            rfl
      next st3 e hload =>
        simp only [Prod.mk.injEq] at h
        exact absurd h.2 (by simp)

theorem get_objects_ok (fs : FS)
    (hcanon : ∀ d m p, fs.canon (fs.join d m) = some p → fs.canon p = some p) :
    ∀ (names : List String) (st st2 : Loader) (gs : List GetResult),
    get_objects fs st names = (st2, .ok gs) → Coh st →
    Extends st st2 ∧ Coh st2
    ∧ (∀ n ∈ names, ResolvedLoaded fs st2 n)
    ∧ (∀ i2 ∈ gs.filterMap GetResult.fresh, i2 < st2.objects.length)
    ∧ (∀ k, st.objects.length ≤ k → k < st2.objects.length →
        k ∈ gs.filterMap GetResult.fresh) := by
  intro names
  induction names with
  | nil =>
    intro st st2 gs h hc
    rw [get_objects] at h
    simp only [Prod.mk.injEq] at h
    obtain ⟨hst, hg⟩ := h
    have hgs : ([] : List GetResult) = gs := Except.ok.inj hg
    subst hst
    rw [← hgs]
    refine ⟨Extends.refl st, hc, ?_, ?_, ?_⟩
    · intro n hn; cases hn
    · intro i2 hi2; cases hi2
    · intro k h1 h2; omega
  | cons n rest ih =>
    intro st st2 gs h hc
    rw [get_objects] at h
    split at h
    next st1 e hgo => simp only [Prod.mk.injEq] at h; exact absurd h.2 (by simp)
    next st1 g hgo =>
      split at h
      next st3 e hrest => simp only [Prod.mk.injEq] at h; exact absurd h.2 (by simp)
      next st3 gs2 hrest =>
        simp only [Prod.mk.injEq] at h
        obtain ⟨hst, hg⟩ := h
        have hgs : g :: gs2 = gs := Except.ok.inj hg
        subst hst
        obtain ⟨hext1, hc1, hres1, hcach, hfr⟩ :=
          get_object_ok fs st n st1 g hcanon hc hgo
        obtain ⟨hext2, hc2, hres2, hval2, hnew2⟩ := ih st1 st3 gs2 hrest hc1
        have hext := Extends.trans hext1 hext2
        rw [← hgs]
        refine ⟨hext, hc2, ?_, ?_, ?_⟩
        · intro m hm
          rcases List.mem_cons.mp hm with he | hm2
          · subst he
            exact ResolvedLoaded.mono fs m hext2 hres1
          · exact hres2 m hm2
        · intro i2 hi2
          cases g with
          | Cached j =>
            rw [List.filterMap_cons] at hi2
            simp only [GetResult.fresh] at hi2
            exact hval2 i2 hi2
          | Fresh j =>
            rw [List.filterMap_cons] at hi2
            simp only [GetResult.fresh] at hi2
            rcases List.mem_cons.mp hi2 with he | hm2
            · subst he
              obtain ⟨hj, hlen1⟩ := hfr i2 rfl
              have := Extends.len_le hext2
              omega
            · exact hval2 i2 hm2
        · intro k h1 h2
          by_cases hk1 : k < st1.objects.length
          · cases g with
            | Cached j =>
              have hst1 : st1 = st := hcach j rfl
              rw [hst1] at hk1
              omega
            | Fresh j =>
              obtain ⟨hj, hlen1⟩ := hfr j rfl
              have hkj : k = j := by omega
              rw [List.filterMap_cons]
              simp only [GetResult.fresh]
              rw [hkj]
              exact List.mem_cons_self _ _
          · have := hnew2 k (by omega) h2
            rw [List.filterMap_cons]
            cases g with
            | Cached j =>
              simp only [GetResult.fresh]
              exact this
            | Fresh j =>
              simp only [GetResult.fresh]
              exact List.mem_cons_of_mem _ this

theorem load_deps_loop_cons (fs : FS) (fuel : Nat) (st : Loader) (i : Nat)
    (rest : List Nat) :
    load_deps_loop fs (fuel + 1) st (i :: rest)
      = match get_objects fs st
          ((i :: rest).flatMap
            (fun index => (st.objects.getD index defaultObject).file.neededs)) with
        | (st1, .error e) => some (st1, .error e)
        | (st1, .ok gs) => load_deps_loop fs fuel st1 (gs.filterMap GetResult.fresh) :=
  rfl

/-- The breadth-first dependency loop preserves `AllAligned`. -/
theorem load_deps_loop_aligned (fs : FS) :
    ∀ (fuel : Nat) (st : Loader) (a : List Nat) (st2 : Loader),
    load_deps_loop fs fuel st a = some (st2, .ok ()) → AllAligned st → AllAligned st2 := by
  intro fuel
  induction fuel with
  | zero =>
    intro st a st2 h
    cases h
  | succ fuel ih =>
    intro st a st2 h ha
    cases a with
    | nil =>
      rw [load_deps_loop] at h
      simp only [Option.some.injEq, Prod.mk.injEq] at h
      obtain ⟨hst, _⟩ := h
      subst hst
      exact ha
    | cons i rest =>
      rw [load_deps_loop_cons] at h
      split at h
      next st1 e hgo => simp at h
      next st1 gs hgo =>
        exact ih st1 (gs.filterMap GetResult.fresh) st2 h
          (get_objects_aligned fs _ st st1 gs hgo ha)

/-- C8: after a successful `load_object_and_dependencies` on a fresh loader,
every object in the loader has every segment's `base + vaddr_range.start`
page-aligned.  Each per-segment mapping passes `MapAddr(base + vaddr)`, a
fixed address that `mmap` rejects with `EINVAL` unless it is page-aligned,
so `load_object` returns `MapError` for any other address and the object
never enters the loader. -/
theorem c8_segment_alignment (fs : FS) (fuel : Nat) (sp : List String)
    (root : String) (st2 : Loader) (idx : Nat)
    (h : load_object_and_dependencies fs fuel (freshLoader sp) root = some (st2, .ok idx)) :
    ∀ o ∈ st2.objects, ∀ seg ∈ o.segments, (o.base + seg.vaddrStart) % 4096 = 0 := by
  unfold load_object_and_dependencies at h
  split at h
  next st1 e hload => simp at h
  next st1 index hload =>
    split at h
    next hloop => cases h
    next st3 e hloop => simp at h
    next st3 u hloop =>
      simp only [Option.some.injEq, Prod.mk.injEq] at h
      obtain ⟨hst, _⟩ := h
      subst hst
      cases u
      have ha1 : AllAligned st1 :=
        load_object_aligned fs (freshLoader sp) root st1 index hload
          (by intro o ho; cases ho)
      exact load_deps_loop_aligned fs fuel st1 [index] st3 hloop ha1

/-- Witness file for C8: one load segment at vaddr 0x2000, reservation at
0x1000. -/
def c8file : FileModel :=
  { phs := [{ type := .Load, vaddr := 8192, filesz := 32, memsz := 32, offset := 0 }]
    neededs := [], rpaths := [], symsRes := some [], relsRes := some []
    reserveBase := some 4096, segMapOk := true }

/-- Witness filesystem for C8. -/
def c8fs : FS :=
  { canon := fun p => if p = "/y" then some "/y" else none
    join := fun d n => d ++ "/" ++ n
    parentDir := fun _ => some "/"
    readFile := fun p => if p = "/y" then some (some c8file) else none }

/-- The loader state after the C8 witness run. -/
def c8st : Loader :=
  ((load_object_and_dependencies c8fs 2 (freshLoader ["/usr/lib"]) "/y").getD
    (freshLoader [], Except.ok 0)).1

/-- The single object the C8 witness run loads. -/
def c8obj : Object := c8st.objects.getD 0 defaultObject

/-- Its single segment. -/
def c8seg : Segment :=
  c8obj.segments.getD 0 { vaddrStart := 0, vaddrEnd := 0, padding := 0 }

theorem c8_segment_alignment_witness :
    (c8obj.base + c8seg.vaddrStart) % 4096 = 0 := by
  have h := c8_segment_alignment c8fs 2 ["/usr/lib"] "/y" c8st 0 rfl
  have hobjs : c8st.objects = [c8obj] := rfl
  have hsegs : c8obj.segments = [c8seg] := rfl
  exact h c8obj (by rw [hobjs]; exact List.mem_cons_self _ _)
    c8seg (by rw [hsegs]; exact List.mem_cons_self _ _)

/-- The breadth-first loop maintains and finally establishes closure: on
successful exit every loaded object's needed names resolve to loaded paths. -/
theorem load_deps_loop_closed (fs : FS)
    (hcanon : ∀ d m p, fs.canon (fs.join d m) = some p → fs.canon p = some p) :
    ∀ (fuel : Nat) (st : Loader) (a : List Nat) (st2 : Loader),
    load_deps_loop fs fuel st a = some (st2, .ok ()) →
    Coh st →
    (∀ i ∈ a, i < st.objects.length) →
    (∀ k, k < st.objects.length → k ∉ a →
      ∀ dep ∈ (st.objects.getD k defaultObject).file.neededs, ResolvedLoaded fs st dep) →
    (∀ k, k < st2.objects.length →
      ∀ dep ∈ (st2.objects.getD k defaultObject).file.neededs, ResolvedLoaded fs st2 dep) := by
  intro fuel
  induction fuel with
  | zero =>
    intro st a st2 h
    cases h
  | succ fuel ih =>
    intro st a st2 h hc hval hclosed
    cases a with
    | nil =>
      rw [load_deps_loop] at h
      simp only [Option.some.injEq, Prod.mk.injEq] at h
      obtain ⟨hst, _⟩ := h
      subst hst
      intro k hk dep hdep
      exact hclosed k hk (List.not_mem_nil k) dep hdep
    | cons i rest =>
      rw [load_deps_loop_cons] at h
      split at h
      next st1 e hgo => simp at h
      next st1 gs hgo =>
        obtain ⟨hext1, hc1, hres1, hval1, hnew1⟩ := get_objects_ok fs hcanon _ st st1 gs hgo hc
        apply ih st1 (gs.filterMap GetResult.fresh) st2 h hc1 hval1
        intro k hk hka dep hdep
        by_cases hk0 : k < st.objects.length
        · have hgd : st1.objects.getD k defaultObject = st.objects.getD k defaultObject :=
            Extends.getD_eq hext1 k hk0
          rw [hgd] at hdep
          by_cases hmem : k ∈ (i :: rest)
          · exact hres1 dep (List.mem_flatMap.mpr ⟨k, hmem, hdep⟩)
          · exact ResolvedLoaded.mono fs dep hext1 (hclosed k hk0 hmem dep hdep)
        · exact absurd (hnew1 k (by omega) hk) hka

/-- C6: after a successful `load_object_and_dependencies` on a fresh loader,
the loaded set is transitively closed — every `DT_NEEDED` name of every
loaded object resolves along the (final) search path to the canonical path
of an object already in the object list.  The filesystem hypothesis is
`canonicalize` idempotence on its own results. -/
theorem c6_dependency_closure (fs : FS) (fuel : Nat) (sp : List String) (root : String)
    (st2 : Loader) (idx : Nat)
    (hcanon : ∀ d n p, fs.canon (fs.join d n) = some p → fs.canon p = some p)
    (h : load_object_and_dependencies fs fuel (freshLoader sp) root = some (st2, .ok idx)) :
    ∀ o ∈ st2.objects, ∀ dep ∈ o.file.neededs,
      ∃ p, object_path fs st2 dep = .ok p ∧ ∃ o2 ∈ st2.objects, o2.path = p := by
  unfold load_object_and_dependencies at h
  split at h
  next st1 e hload => simp at h
  next st1 index hload =>
    split at h
    next hloop => cases h
    next st3 e hloop => simp at h
    next st3 u hloop =>
      simp only [Option.some.injEq, Prod.mk.injEq] at h
      obtain ⟨hst, hidx⟩ := h
      subst hst
      cases u
      obtain ⟨p, file, hull, data, syms, rels, hp, hf, hh, hd, hsy, hr, _, hi, hsp2,
        hobjs, hmap⟩ := load_object_ok fs (freshLoader sp) root st1 index hload
      have hc1 : Coh st1 := by
        apply load_object_coh fs (freshLoader sp) root st1 index hload
        intro q i2 hq
        cases hq
      have hlen1 : st1.objects.length = 1 := by
        rw [hobjs]
        rfl
      have hidx0 : index = 0 := by
        rw [hi]
        rfl
      have hval1 : ∀ i2 ∈ [index], i2 < st1.objects.length := by
        intro i2 hi2
        rcases List.mem_cons.mp hi2 with he | hn
        · subst he
          omega
        · cases hn
      have hclosed1 : ∀ k, k < st1.objects.length → k ∉ [index] →
          ∀ dep ∈ (st1.objects.getD k defaultObject).file.neededs,
            ResolvedLoaded fs st1 dep := by
        intro k hk hka
        exfalso
        apply hka
        have hk0 : k = 0 := by omega
        rw [hk0, hidx0]
        exact List.mem_cons_self _ _
      have hclosed := load_deps_loop_closed fs hcanon fuel st1 [index] st3 hloop hc1
        hval1 hclosed1
      intro o ho dep hdep
      obtain ⟨k, hklt, hko⟩ := List.mem_iff_getElem.mp ho
      have hgd : st3.objects.getD k defaultObject = o := by
        rw [List.getD_eq_getElem _ _ hklt, hko]
      exact hclosed k hklt dep (by rw [hgd]; exact hdep)

/-- C6 witness fixture: the root executable, needing `libb`. -/
def c6fileA : FileModel :=
  { phs := [{ type := .Load, vaddr := 0, filesz := 16, memsz := 16, offset := 0 }]
    neededs := ["libb"], rpaths := [], symsRes := some [], relsRes := some []
    reserveBase := some 4096, segMapOk := true }

/-- C6 witness fixture: the dependency, needing nothing. -/
def c6fileB : FileModel :=
  { phs := [{ type := .Load, vaddr := 0, filesz := 16, memsz := 16, offset := 0 }]
    neededs := [], rpaths := [], symsRes := some [], relsRes := some []
    reserveBase := some 8192, segMapOk := true }

def c6canon (q : String) : Option String :=
  if q = "/a" then some "/a"
  else if q = "/lib/libb" then some "/lib/libb"
  else none

def c6fs : FS :=
  { canon := c6canon
    join := fun d n => d ++ "/" ++ n
    parentDir := fun _ => some "/"
    readFile := fun q =>
      if q = "/a" then some (some c6fileA)
      else if q = "/lib/libb" then some (some c6fileB)
      else none }

theorem c6canon_idem : ∀ d n p, c6fs.canon (c6fs.join d n) = some p →
    c6fs.canon p = some p := by
  intro d n p h
  show c6canon p = some p
  have h2 : c6canon (c6fs.join d n) = some p := h
  unfold c6canon at h2 ⊢
  split at h2
  · rw [← Option.some.inj h2, if_pos rfl]
  · split at h2
    · rw [← Option.some.inj h2, if_neg (by decide), if_pos rfl]
    · cases h2

/-- The final loader state of the C6 witness run. -/
def c6st2 : Loader :=
  ((load_object_and_dependencies c6fs 3 (freshLoader ["/lib"]) "/a").getD
    (freshLoader [], Except.ok 0)).1

theorem c6_dependency_closure_witness :
    ∃ p, object_path c6fs c6st2 "libb" = .ok p ∧ ∃ o2 ∈ c6st2.objects, o2.path = p :=
  c6_dependency_closure c6fs 3 ["/lib"] "/a" c6st2 0 c6canon_idem rfl
    (c6st2.objects.getD 0 defaultObject) (by decide) "libb" (by decide)

end Elk
